/-
  Verification of the pipes pipeline-execution engine against its
  natural-language specification.

  The Go source (package engine: executor.go, scheduler.go; package
  transforms: limit.go) is shallowly embedded below.  Go maps are modelled
  as association lists whose iteration order is first-insertion order (Go's
  map iteration order is unspecified; every refuting evaluation below is
  independent of that order).  Go `interface` values in node configurations
  are modelled by the `ConfigValue` inductive with numbers as integers.
  Machine integers are modelled as unbounded Int (no Go arithmetic here can
  overflow in the scenarios considered).  Clock reads (`time.Now()`) are
  modelled by explicit timestamp parameters.  Store writes are modelled as
  an emitted event trace (`StoreEvent`), in the order the Go code issues
  them; store-level I/O errors are not modelled (writes always succeed).
-/
import Mathlib

namespace Pipes

/-! ## Data model (engine/executor.go types) -/

/-- A scalar configuration value (Go `interface` holding a JSON scalar);
numbers are modelled as integers. -/
inductive ConfigValue where
  | num (n : Int)
  | str (s : String)
  | bool (b : Bool)
  | null
deriving DecidableEq, Repr

/-- A node instance of a pipeline (engine.Node); the display position is
irrelevant to execution and omitted. -/
structure Node where
  id : String
  type : String
  config : List (String × ConfigValue)
  label : String
deriving DecidableEq, Repr

/-- A directed edge between two node instances (engine.Connection). -/
structure Connection where
  id : String
  source : String
  target : String
  sourceHandle : String
  targetHandle : String
deriving DecidableEq, Repr

/-- Pipeline settings (engine.Settings); advisory metadata, unused by the
execution path under verification. -/
structure Settings where
  schedule : String
  enabled : Bool
  timeout : Int
deriving DecidableEq, Repr

/-- A parsed pipeline definition (engine.PipeConfig). -/
structure PipeConfig where
  version : String
  nodes : List Node
  connections : List Connection
  settings : Settings
deriving DecidableEq, Repr

/-! ## Association lists modelling Go maps -/

/-- Lookup in an association list (Go `m[k]` with presence flag). -/
def alookup {α : Type _} (k : String) : List (String × α) → Option α
  | [] => none
  | (k', v) :: rest => if k' = k then some v else alookup k rest

/-- Write through an association list (Go `m[k] = f(m[k])`), creating the
entry at the end when the key is absent — first-insertion iteration order. -/
def aupdate {α : Type _} (k : String) (f : Option α → α) : List (String × α) → List (String × α)
  | [] => [(k, f none)]
  | (k', v) :: rest => if k' = k then (k', f (some v)) :: rest else (k', v) :: aupdate k f rest

/-- The keys of an association list, in iteration order. -/
def akeys {α : Type _} (m : List (String × α)) : List String := m.map Prod.fst

theorem alookup_aupdate_self {α : Type _} (k : String) (f : Option α → α) (m : List (String × α)) :
    alookup k (aupdate k f m) = some (f (alookup k m)) := by
  induction m with
  | nil => simp [aupdate, alookup]
  | cons p rest ih =>
    obtain ⟨k', v⟩ := p
    by_cases h : k' = k
    · simp [aupdate, alookup, h]
    · simp [aupdate, alookup, h, ih]

theorem alookup_aupdate_ne {α : Type _} {k k2 : String} (h : k ≠ k2) (f : Option α → α)
    (m : List (String × α)) : alookup k2 (aupdate k f m) = alookup k2 m := by
  induction m with
  | nil => simp [aupdate, alookup, fun hh => h (hh : k = k2)]
  | cons p rest ih =>
    obtain ⟨k', v⟩ := p
    by_cases hk : k' = k
    · subst hk
      simp [aupdate, alookup, h, fun hh => h (hh : k' = k2)]
    · by_cases hk2 : k' = k2 <;> simp [aupdate, alookup, hk, hk2, ih, Ne.symm h]

theorem akeys_aupdate_mem {α : Type _} {k : String} {m : List (String × α)}
    (h : k ∈ akeys m) (f : Option α → α) : akeys (aupdate k f m) = akeys m := by
  induction m with
  | nil => simp [akeys] at h
  | cons p rest ih =>
    obtain ⟨k', v⟩ := p
    by_cases hk : k' = k
    · simp [aupdate, akeys, hk]
    · have hmem : k ∈ akeys rest := by
        simp [akeys] at h
        rcases h with h | h
        · exact absurd h.symm hk
        · simpa [akeys] using h
      simp [aupdate, akeys, hk]
      simpa [akeys] using ih hmem

theorem aupdate_not_mem {α : Type _} {k : String} {m : List (String × α)}
    (h : k ∉ akeys m) (f : Option α → α) : aupdate k f m = m ++ [(k, f none)] := by
  induction m with
  | nil => simp [aupdate]
  | cons p rest ih =>
    obtain ⟨k', v⟩ := p
    have hk : k' ≠ k := by
      intro hh; exact h (by simp [akeys, hh])
    have hrest : k ∉ akeys rest := by
      intro hh; exact h (by simp [akeys] at hh ⊢; exact Or.inr hh)
    simp [aupdate, hk, ih hrest]

theorem alookup_isSome_of_mem_akeys {α : Type _} {k : String} {m : List (String × α)}
    (h : k ∈ akeys m) : ∃ v, alookup k m = some v := by
  induction m with
  | nil => simp [akeys] at h
  | cons p rest ih =>
    obtain ⟨k', v⟩ := p
    by_cases hk : k' = k
    · exact ⟨v, by simp [alookup, hk]⟩
    · have : k ∈ akeys rest := by
        simp [akeys] at h
        rcases h with h | h
        · exact absurd h.symm hk
        · simpa [akeys] using h
      obtain ⟨w, hw⟩ := ih this
      exact ⟨w, by simp [alookup, hk, hw]⟩

theorem mem_akeys_of_alookup {α : Type _} {k : String} {m : List (String × α)} {v : α}
    (h : alookup k m = some v) : k ∈ akeys m := by
  induction m with
  | nil => simp [alookup] at h
  | cons p rest ih =>
    obtain ⟨k', w⟩ := p
    by_cases hk : k' = k
    · simp [akeys, hk]
    · simp [alookup, hk] at h
      simp [akeys]
      exact Or.inr (by simpa [akeys] using ih h)

/-! ## Graph Resolver (engine/executor.go: topologicalSort) -/

/-- Initialization loop of topologicalSort: for each node, set its
in-degree to 0 and its adjacency list to empty. -/
def initMaps : List (String × Int) → List (String × List String) → List Node →
    (List (String × Int)) × (List (String × List String))
  | d, a, [] => (d, a)
  | d, a, n :: rest =>
      initMaps (aupdate n.id (fun _ => 0) d) (aupdate n.id (fun _ => []) a) rest

/-- Graph-building loop of topologicalSort: for each connection, append the
target to the source's adjacency list and increment the target's in-degree. -/
def buildGraph : List (String × Int) → List (String × List String) → List Connection →
    (List (String × Int)) × (List (String × List String))
  | d, a, [] => (d, a)
  | d, a, c :: rest =>
      buildGraph (aupdate c.target (fun v => v.getD 0 + 1) d)
        (aupdate c.source (fun v => v.getD [] ++ [c.target]) a) rest

/-- Read a node's successor list from the adjacency map (missing key reads
as the empty list, as for a Go map). -/
def adjGet (a : List (String × List String)) (u : String) : List String :=
  (alookup u a).getD []

/-- Inner loop over the successors of a dequeued node: decrement each
successor's in-degree, enqueueing it when the decremented value is zero. -/
def processNeighbors : List (String × Int) → List String → List String →
    (List (String × Int)) × List String
  | d, q, [] => (d, q)
  | d, q, nb :: rest =>
      let d' := aupdate nb (fun v => v.getD 0 - 1) d
      let q' := if (alookup nb d').getD 0 = 0 then q ++ [nb] else q
      processNeighbors d' q' rest

/-- The Kahn worklist loop of topologicalSort.  The Go loop runs until the
queue is empty; here a fuel argument bounds the iteration count, and
`topologicalSort` supplies fuel strictly larger than the loop measure
(queue length plus the sum of the positive in-degrees), which the lemmas
below show never runs out. -/
def kahnLoop (adj : List (String × List String)) :
    Nat → List (String × Int) → List String → List String → List String
  | 0, _, _, sorted => sorted
  | fuel + 1, d, q, sorted =>
    match q with
    | [] => sorted
    | u :: rest =>
      match processNeighbors d rest (adjGet adj u) with
      | (d', q') => kahnLoop adj fuel d' q' (sorted ++ [u])

/-- engine.topologicalSort: Kahn's algorithm; fails when the produced order
is shorter (or longer) than the node count. -/
def topologicalSort (ns : List Node) (cs : List Connection) : Except String (List String) :=
  let im := initMaps [] [] ns
  let bg := buildGraph im.1 im.2 cs
  let q0 := (bg.1.filter (fun p => decide (p.2 = 0))).map Prod.fst
  let sorted := kahnLoop bg.2 (bg.1.length + cs.length + 1) bg.1 q0 []
  if sorted.length ≠ ns.length then Except.error "pipeline contains a cycle"
  else Except.ok sorted

/-- engine.findNode: first node with the given identifier. -/
def findNode (ns : List Node) (nodeID : String) : Option Node :=
  match ns with
  | [] => none
  | n :: rest => if n.id = nodeID then some n else findNode rest nodeID

/-! ## Specification-level graph notions -/

/-- The identifiers of a pipeline's nodes, in declaration order. -/
def nodeIds (ns : List Node) : List String := ns.map Node.id

/-- Directed edge relation induced by the connection list. -/
def Edge (cs : List Connection) (u v : String) : Prop :=
  ∃ c ∈ cs, c.source = u ∧ c.target = v

/-- A pipeline graph is well-formed when node identifiers are unique and
every connection endpoint names an existing node (the data-model
invariants of §3 of the specification). -/
def Wellformed (ns : List Node) (cs : List Connection) : Prop :=
  (nodeIds ns).Nodup ∧ ∀ c ∈ cs, c.source ∈ nodeIds ns ∧ c.target ∈ nodeIds ns

/-- The connection graph admits no directed cycle. -/
def Acyclic (cs : List Connection) : Prop :=
  ∀ v, ¬ Relation.TransGen (Edge cs) v v

/-- Number of connections into v whose source has not yet been processed. -/
def pendCount (cs : List Connection) (s : List String) (v : String) : Nat :=
  (cs.filter (fun c => decide (c.target = v ∧ c.source ∉ s))).length

/-- Position of the first occurrence of a string in a list. -/
def pos (a : String) : List String → Nat
  | [] => 0
  | b :: rest => if b = a then 0 else pos a rest + 1

/-! ## Executor (engine/executor.go: Execute, executePipeline, gatherInputs)

The item type V is a parameter (node outputs are opaque records).  Errors
returned by the engine are modelled structurally by `EngineError`;
`EngineError.render` is the corresponding `err.Error()` string after the
`fmt.Errorf` wrappings applied by the source. -/

/-- Errors surfaced by Executor.Execute, after wrapping. -/
inductive EngineError where
  | cyclicGraph
  | unknownNodeType (nodeType : String)
  | nodeFailed (nodeID nodeType msg : String)
  | pipeNotFound (pipeID : String)
  | parseConfig (msg : String)
deriving DecidableEq, Repr

/-- The error string produced by err.Error() for each wrapped engine
error, following the fmt.Errorf format strings in the source. -/
def EngineError.render : EngineError → String
  | .cyclicGraph => "topological sort: pipeline contains a cycle"
  | .unknownNodeType t => "get node type " ++ t ++ ": unknown node type: " ++ t
  | .nodeFailed nodeID nodeType msg => "node " ++ nodeID ++ " (" ++ nodeType ++ "): " ++ msg
  | .pipeNotFound pipeID => "pipe not found: " ++ pipeID
  | .parseConfig msg => "parse config: " ++ msg

/-- One store write issued by the engine, in program order (store package:
CreateExecution, LogExecution / LogExecutionWithData, UpdateExecutionSuccess,
UpdateExecutionFailed, UpdateJobAfterRun).  The `payload` of a log entry is
the structured data of LogExecutionWithData (`none` for LogExecution). -/
inductive StoreEvent (V : Type _) where
  | createExecution (id pipeID triggerType : String) (startedAt : Int)
  | logEntry (executionID nodeID level message : String) (payload : Option (List V))
  | updateSuccess (id : String) (completedAt durationMs : Int) (itemsProcessed : Nat)
  | updateFailed (id : String) (completedAt durationMs : Int) (errorMessage : String)
  | updateJobAfterRun (id : String) (lastRunAt nextRunAt : Int)
deriving DecidableEq, Repr

/-- A node implementation (nodes.Node restricted to its Execute method).
Calling Execute yields the log lines the node appends through its
execution context, as (nodeID, level, message) triples in order, and
either an output sequence or an error message. -/
structure NodeImpl (V : Type _) where
  execute : List (String × ConfigValue) → List (List V) →
    List (String × String × String) × Except String (List V)

/-- The node registry (engine.Registry), keyed by node-type string.  The Go
registry is populated with the fixed built-ins at startup; their concrete
implementations perform network I/O and are abstracted as parameters here. -/
def Registry (V : Type _) := List (String × NodeImpl V)

/-- Log events a node emitted through its execution context
(nodes.Context.Log calls db.LogExecution). -/
def nodeLogEvents {V : Type _} (executionID : String)
    (ls : List (String × String × String)) : List (StoreEvent V) :=
  ls.map (fun l => StoreEvent.logEntry executionID l.1 l.2.1 l.2.2 none)

/-- engine.Executor.gatherInputs: for each connection targeting the node,
in connection order, the source's already-produced output, skipping
sources with no produced output. -/
def gatherInputs {V : Type _} (nodeID : String) (cs : List Connection)
    (results : List (String × List V)) : List (List V) :=
  match cs with
  | [] => []
  | c :: rest =>
    if c.target = nodeID then
      match alookup c.source results with
      | some r => r :: gatherInputs nodeID rest results
      | none => gatherInputs nodeID rest results
    else gatherInputs nodeID rest results

/-- The per-node loop of engine.Executor.executePipeline, over the resolved
order.  Produces the emitted store events and either the final results map
or the aborting error. -/
def runLoop {V : Type _} (reg : Registry V) (cfgNodes : List Node) (cs : List Connection)
    (executionID : String) :
    List String → List (String × List V) →
    List (StoreEvent V) × Except EngineError (List (String × List V))
  | [], results => ([], Except.ok results)
  | nodeID :: rest, results =>
    match findNode cfgNodes nodeID with
    | none => runLoop reg cfgNodes cs executionID rest results
    | some nd =>
      match alookup nd.type reg with
      | none => ([], Except.error (EngineError.unknownNodeType nd.type))
      | some impl =>
        match impl.execute nd.config (gatherInputs nodeID cs results) with
        | (nlogs, Except.error msg) =>
            (nodeLogEvents executionID nlogs ++
               [StoreEvent.logEntry executionID nodeID "error" ("Execution failed: " ++ msg) none],
             Except.error (EngineError.nodeFailed nodeID nd.type msg))
        | (nlogs, Except.ok output) =>
            match runLoop reg cfgNodes cs executionID rest
                (aupdate nodeID (fun _ => output) results) with
            | (evs, res) =>
                (nodeLogEvents executionID nlogs ++
                   [StoreEvent.logEntry executionID nodeID "data"
                      (toString output.length ++ " items") (some output)] ++ evs,
                 res)

/-- engine.Executor.executePipeline: resolve the order, run the nodes, and
report the item count of the last node in the order (zero for an empty
order or when the last node produced no stored output). -/
def executePipeline {V : Type _} (reg : Registry V) (executionID : String)
    (config : PipeConfig) : List (StoreEvent V) × Except EngineError Nat :=
  match topologicalSort config.nodes config.connections with
  | Except.error _ => ([], Except.error EngineError.cyclicGraph)
  | Except.ok order =>
    match runLoop reg config.nodes config.connections executionID order [] with
    | (evs, Except.error e) => (evs, Except.error e)
    | (evs, Except.ok results) =>
      match order.getLast? with
      | none => (evs, Except.ok 0)
      | some last => (evs, Except.ok ((alookup last results).getD []).length)

/-- The stored pipes table: pipe identifier to parsed configuration;
`some none` models a stored pipe whose configuration string fails to
parse (json.Unmarshal error), `none` a missing pipe (GetPipe returns nil). -/
def PipeTable := List (String × Option PipeConfig)

/-- engine.Executor.Execute.  `executionID` stands for the freshly
generated UUID (never empty in Go); `t0` and `t1` are the two clock
reads.  Returns the emitted store events, the returned execution
identifier string, and the returned error, mirroring the Go returns:
the identifier is `""` on the pipe-lookup and parse failure paths. -/
def Execute {V : Type _} (reg : Registry V) (pipes : PipeTable)
    (executionID pipeID triggerType : String) (t0 t1 : Int) :
    List (StoreEvent V) × String × Option EngineError :=
  let createEv : StoreEvent V := StoreEvent.createExecution executionID pipeID triggerType t0
  match alookup pipeID pipes with
  | none => ([createEv], "", some (EngineError.pipeNotFound pipeID))
  | some none => ([createEv], "", some (EngineError.parseConfig "invalid JSON"))
  | some (some config) =>
    match executePipeline reg executionID config with
    | (evs, Except.error e) =>
        ([createEv] ++ evs ++
           [StoreEvent.updateFailed executionID t1 ((t1 - t0) * 1000) e.render],
         executionID, some e)
    | (evs, Except.ok n) =>
        ([createEv] ++ evs ++
           [StoreEvent.updateSuccess executionID t1 ((t1 - t0) * 1000) n],
         executionID, none)

/-! ## Scheduler (engine/scheduler.go) -/

/-- store.ScheduledJob (fields used by the scheduler). -/
structure ScheduledJob where
  id : String
  pipeID : String
  cronExpression : String
  nextRunAt : Int
  lastRunAt : Option Int
  enabled : Bool
deriving DecidableEq, Repr

/-- store.GetDueJobs: enabled jobs whose next run is at or before now. -/
def getDueJobs (jobs : List ScheduledJob) (now : Int) : List ScheduledJob :=
  jobs.filter (fun j => j.enabled && decide (j.nextRunAt ≤ now))

/-- engine.Scheduler.executeJob: run the pipeline (a failed execution is
only logged to the process logger), then unconditionally set the job's
last run to now and its next run to one hour later.  `tNow` models the
clock reads taken after the execution returns. -/
def executeJob {V : Type _} (reg : Registry V) (pipes : PipeTable)
    (job : ScheduledJob) (executionID : String) (t0 t1 tNow : Int) : List (StoreEvent V) :=
  match Execute reg pipes executionID job.pipeID "scheduled" t0 t1 with
  | (evs, _, _) => evs ++ [StoreEvent.updateJobAfterRun job.id tNow (tNow + 3600)]

/-- The per-job loop of engine.Scheduler.tick: job errors are logged and do
not stop the iteration. -/
def runJobs {V : Type _} (reg : Registry V) (pipes : PipeTable) (idgen : String → String)
    (now : Int) : List ScheduledJob → List (StoreEvent V)
  | [] => []
  | j :: rest =>
      executeJob reg pipes j (idgen j.id) now now now ++ runJobs reg pipes idgen now rest

/-- engine.Scheduler.tick: fetch the due jobs and execute each.  `idgen`
models the fresh execution identifier drawn for each job's run; clock
reads within the tick are modelled by `now`. -/
def tick {V : Type _} (reg : Registry V) (pipes : PipeTable) (jobs : List ScheduledJob)
    (now : Int) (idgen : String → String) : List (StoreEvent V) :=
  runJobs reg pipes idgen now (getDueJobs jobs now)

/-! ## Limit node (nodes/transforms/limit.go) -/

/-- The numeric `count` configuration value as read by LimitNode.Execute:
the Go type assertion `config["count"].(float64)` yields 0 for a missing
or non-numeric value. -/
def limitCount (config : List (String × ConfigValue)) : Int :=
  match alookup "count" config with
  | some (ConfigValue.num n) => n
  | _ => 0

/-- transforms.LimitNode.Execute. -/
def limitExecute {V : Type _} (config : List (String × ConfigValue)) (inputs : List (List V)) :
    List (String × String × String) × Except String (List V) :=
  match inputs with
  | [] => ([], Except.ok [])
  | items :: _ =>
    let count := limitCount config
    if count ≤ 0 ∨ (items.length : Int) ≤ count then ([], Except.ok items)
    else
      ([("limit", "info",
          "Limited " ++ toString items.length ++ " -> " ++ toString count.toNat ++ " items")],
       Except.ok (items.take count.toNat))

/-! ## Helper lemmas about positions, counts and pending in-degrees -/

/-- The successors of u recorded in the adjacency map: the targets of the
connections out of u, in connection order. -/
def connTargets (cs : List Connection) (u : String) : List String :=
  (cs.filter (fun c => decide (c.source = u))).map Connection.target

/-- Number of connections from u to v (with multiplicity). -/
def countConn (cs : List Connection) (u v : String) : Nat :=
  (cs.filter (fun c => decide (c.source = u ∧ c.target = v))).length

theorem mem_of_alookup {α : Type _} {k : String} {m : List (String × α)} {v : α}
    (h : alookup k m = some v) : (k, v) ∈ m := by
  induction m with
  | nil => simp [alookup] at h
  | cons p rest ih =>
    obtain ⟨k', w⟩ := p
    by_cases hk : k' = k
    · simp [alookup, hk] at h
      simp [hk, h]
    · simp [alookup, hk] at h
      exact List.mem_cons_of_mem _ (ih h)

theorem mem_aupdate {α : Type _} {k : String} {f : Option α → α} : ∀ {m : List (String × α)}
    {p : String × α}, p ∈ aupdate k f m → p ∈ m ∨ p = (k, f (alookup k m)) := by
  intro m
  induction m with
  | nil =>
    intro p h
    simp [aupdate] at h
    exact Or.inr (by simp [h, alookup])
  | cons q rest ih =>
    obtain ⟨k', v⟩ := q
    intro p h
    by_cases hk : k' = k
    · simp [aupdate, hk] at h
      rcases h with h | h
      · subst hk
        exact Or.inr (by simp [h, alookup])
      · exact Or.inl (List.mem_cons_of_mem _ h)
    · simp [aupdate, hk] at h
      rcases h with h | h
      · exact Or.inl (by simp [h])
      · rcases ih h with h' | h'
        · exact Or.inl (List.mem_cons_of_mem _ h')
        · rw [h']
          exact Or.inr (by simp [alookup, hk])

theorem pos_lt_length {a : String} {l : List String} (h : a ∈ l) : pos a l < l.length := by
  induction l with
  | nil => simp at h
  | cons b rest ih =>
    by_cases hb : b = a
    · simp [pos, hb]
    · have : a ∈ rest := by
        rcases List.mem_cons.mp h with h' | h'
        · exact absurd h'.symm hb
        · exact h'
      simp [pos, hb]
      exact ih this

theorem pos_append_left {a : String} {l : List String} (h : a ∈ l) (l2 : List String) :
    pos a (l ++ l2) = pos a l := by
  induction l with
  | nil => simp at h
  | cons b rest ih =>
    by_cases hb : b = a
    · simp [pos, hb]
    · have : a ∈ rest := by
        rcases List.mem_cons.mp h with h' | h'
        · exact absurd h'.symm hb
        · exact h'
      simp [pos, hb, ih this]

theorem pos_append_self {a : String} {l : List String} (h : a ∉ l) :
    pos a (l ++ [a]) = l.length := by
  induction l with
  | nil => simp [pos]
  | cons b rest ih =>
    have hb : b ≠ a := by intro hh; exact h (by simp [hh])
    have : a ∉ rest := by intro hh; exact h (List.mem_cons_of_mem _ hh)
    simp [pos, hb, ih this]

theorem pendCount_split {u : String} {s : List String} (hu : u ∉ s)
    (cs : List Connection) (v : String) :
    pendCount cs s v = countConn cs u v + pendCount cs (s ++ [u]) v := by
  induction cs with
  | nil => simp [pendCount, countConn]
  | cons c rest ih =>
    by_cases ht : c.target = v
    · by_cases hsrc : c.source = u
      · have hnot : c.source ∉ s := by rwa [hsrc]
        simp [pendCount, countConn, List.filter] at ih ⊢
        simp [ht, hsrc, hnot, hu, ih]
        omega
      · by_cases hin : c.source ∈ s
        · simp [pendCount, countConn, List.filter] at ih ⊢
          simp [ht, hsrc, hin, ih]
        · have hnot : c.source ∉ s ++ [u] := by
            intro hh
            rcases List.mem_append.mp hh with hh | hh
            · exact hin hh
            · exact hsrc (by simpa using hh)
          simp [pendCount, countConn, List.filter] at ih ⊢
          simp [ht, hsrc, hin, hnot, ih]
          omega
    · simp [pendCount, countConn, List.filter] at ih ⊢
      simp [ht, ih]

theorem pendCount_ne_zero_of_witness {cs : List Connection} {s : List String} {v : String}
    {c : Connection} (hc : c ∈ cs) (ht : c.target = v) (hs : c.source ∉ s) :
    pendCount cs s v ≠ 0 := by
  have hmem : c ∈ cs.filter (fun c => decide (c.target = v ∧ c.source ∉ s)) :=
    List.mem_filter.mpr ⟨hc, by simp [ht, hs]⟩
  have hpos : 0 < (cs.filter (fun c => decide (c.target = v ∧ c.source ∉ s))).length :=
    List.length_pos.mpr (List.ne_nil_of_mem hmem)
  intro hzero
  unfold pendCount at hzero
  omega

theorem pendCount_pos_witness {cs : List Connection} {s : List String} {v : String}
    (h : pendCount cs s v ≠ 0) : ∃ c ∈ cs, c.target = v ∧ c.source ∉ s := by
  induction cs with
  | nil => simp [pendCount] at h
  | cons c rest ih =>
    by_cases hc : c.target = v ∧ c.source ∉ s
    · exact ⟨c, by simp, hc.1, hc.2⟩
    · have : pendCount rest s v ≠ 0 := by
        simpa [pendCount, List.filter, hc] using h
      obtain ⟨c', hc', h1, h2⟩ := ih this
      exact ⟨c', List.mem_cons_of_mem _ hc', h1, h2⟩

theorem pendCount_zero_of_sub {s s' : List String} (hsub : ∀ x ∈ s, x ∈ s')
    {cs : List Connection} {v : String} (h : pendCount cs s v = 0) :
    pendCount cs s' v = 0 := by
  by_contra hne
  obtain ⟨c, hc, ht, hs'⟩ := pendCount_pos_witness hne
  have hs : c.source ∉ s := fun hh => hs' (hsub _ hh)
  exact pendCount_ne_zero_of_witness hc ht hs h

theorem countConn_pos_witness {cs : List Connection} {u v : String}
    (h : countConn cs u v ≠ 0) : ∃ c ∈ cs, c.source = u ∧ c.target = v := by
  induction cs with
  | nil => simp [countConn] at h
  | cons c rest ih =>
    by_cases hc : c.source = u ∧ c.target = v
    · exact ⟨c, by simp, hc⟩
    · have : countConn rest u v ≠ 0 := by
        simpa [countConn, List.filter, hc] using h
      obtain ⟨c', hc', h1⟩ := ih this
      exact ⟨c', List.mem_cons_of_mem _ hc', h1⟩

theorem count_connTargets (cs : List Connection) (u v : String) :
    (connTargets cs u).count v = countConn cs u v := by
  induction cs with
  | nil => simp [connTargets, countConn]
  | cons c rest ih =>
    by_cases hs : c.source = u
    · by_cases ht : c.target = v
      · simp [connTargets, countConn, List.filter, hs, ht] at ih ⊢
        simp [List.count_cons, ih]
      · simp [connTargets, countConn, List.filter, hs, ht] at ih ⊢
        simp [List.count_cons, ih, ht]
    · simp [connTargets, countConn, List.filter, hs] at ih ⊢
      exact ih

theorem mem_connTargets {cs : List Connection} {u v : String} :
    v ∈ connTargets cs u ↔ ∃ c ∈ cs, c.source = u ∧ c.target = v := by
  constructor
  · intro h
    simp [connTargets] at h
    obtain ⟨c, ⟨hc, hs⟩, ht⟩ := h
    exact ⟨c, hc, hs, ht⟩
  · intro ⟨c, hc, hs, ht⟩
    simp [connTargets]
    exact ⟨c, ⟨hc, hs⟩, ht⟩

theorem alookup_of_mem_nodup {α : Type _} {k : String} {v : α} {m : List (String × α)}
    (hn : (akeys m).Nodup) (h : (k, v) ∈ m) : alookup k m = some v := by
  induction m with
  | nil => simp at h
  | cons p rest ih =>
    obtain ⟨k', w⟩ := p
    rcases List.mem_cons.mp h with h' | h'
    · have h1 : k' = k := (congrArg Prod.fst h').symm
      have h2 : w = v := (congrArg Prod.snd h').symm
      simp [alookup, h1, h2]
    · have hk : k' ≠ k := by
        intro hh
        subst hh
        have : k' ∈ akeys rest := by
          simpa [akeys] using List.mem_map_of_mem Prod.fst h'
        simp [akeys] at hn
        exact absurd this (by simpa [akeys] using hn.1)
      have hn' : (akeys rest).Nodup := by
        simp [akeys] at hn ⊢
        exact hn.2
      simp [alookup, hk]
      exact ih hn' h'

theorem sum_map_add (K : List String) (a b : String → Nat) :
    (K.map (fun v => a v + b v)).sum = (K.map a).sum + (K.map b).sum := by
  induction K with
  | nil => simp
  | cons x rest ih => simp [ih]; omega

theorem sum_map_indicator {c : String} : ∀ {K : List String}, K.Nodup →
    (K.map (fun v => if c = v then (1 : Nat) else 0)).sum = if c ∈ K then 1 else 0 := by
  intro K
  induction K with
  | nil => simp
  | cons x xs ihx =>
    intro hK
    have hx : xs.Nodup := (List.nodup_cons.mp hK).2
    by_cases hcx : c = x
    · subst hcx
      have hnot : c ∉ xs := (List.nodup_cons.mp hK).1
      have hz : (xs.map (fun v => if c = v then (1 : Nat) else 0)).sum = 0 := by
        rw [List.sum_eq_zero]
        intro y hy
        simp at hy
        obtain ⟨v, hv, hy⟩ := hy
        have : c ≠ v := fun hh => hnot (hh ▸ hv)
        simp [this] at hy
        omega
      simp [hz]
    · simp [hcx, ihx hx]

theorem sum_counts (l : List String) : ∀ K : List String, K.Nodup →
    (K.map (fun v => l.count v)).sum = (l.filter (fun x => decide (x ∈ K))).length := by
  induction l with
  | nil => intro K _; simp
  | cons c rest ih =>
    intro K hK
    have hcnt : ∀ v, (c :: rest).count v = rest.count v + (if c = v then 1 else 0) := by
      intro v
      by_cases hc : c = v <;> simp [List.count_cons, hc]
    have hsum1 : (K.map (fun v => (c :: rest).count v)).sum =
        (K.map (fun v => rest.count v)).sum + (K.map (fun v => if c = v then 1 else 0)).sum := by
      calc (K.map (fun v => (c :: rest).count v)).sum
          = (K.map (fun v => rest.count v + (if c = v then 1 else 0))).sum := by
            congr 1
            exact List.map_congr_left (fun v _ => hcnt v)
        _ = _ := sum_map_add K _ _
    have hite : (K.map (fun v => if c = v then 1 else 0)).sum = if c ∈ K then 1 else 0 :=
      sum_map_indicator hK
    by_cases hcK : c ∈ K
    · simp [List.filter, hcK, hsum1, hite, ih K hK]
    · simp [List.filter, hcK, hsum1, hite, ih K hK]

theorem sum_counts_eq_length {l K : List String} (hK : K.Nodup) (hsub : ∀ x ∈ l, x ∈ K) :
    (K.map (fun v => l.count v)).sum = l.length := by
  rw [sum_counts l K hK]
  have : l.filter (fun x => decide (x ∈ K)) = l := by
    apply List.filter_eq_self.mpr
    intro x hx
    simpa using hsub x hx
  rw [this]

theorem sum_counts_le_length {l K : List String} (hK : K.Nodup) :
    (K.map (fun v => l.count v)).sum ≤ l.length := by
  rw [sum_counts l K hK]
  exact List.length_filter_le _ _

/-! ## Characterization of the build phase of topologicalSort -/

theorem initMaps_eq : ∀ (ns : List Node) (d : List (String × Int)) (a : List (String × List String)),
    (nodeIds ns).Nodup → (∀ x ∈ nodeIds ns, x ∉ akeys d) → (∀ x ∈ nodeIds ns, x ∉ akeys a) →
    initMaps d a ns = (d ++ ns.map (fun n => (n.id, (0 : Int))), a ++ ns.map (fun n => (n.id, ([] : List String)))) := by
  intro ns
  induction ns with
  | nil => intro d a _ _ _; simp [initMaps]
  | cons n rest ih =>
    intro d a hnd hd ha
    have hidd : n.id ∉ akeys d := hd n.id (by simp [nodeIds])
    have hida : n.id ∉ akeys a := ha n.id (by simp [nodeIds])
    have hsub : ∀ x ∈ nodeIds rest, x ∈ nodeIds (n :: rest) := by
      intro x hx
      simp [nodeIds] at hx ⊢
      obtain ⟨m, hm, hmx⟩ := hx
      exact Or.inr ⟨m, hm, hmx⟩
    have hnd' : (nodeIds rest).Nodup := by
      simp [nodeIds] at hnd ⊢
      exact hnd.2
    have hne : ∀ x ∈ nodeIds rest, x ≠ n.id := by
      intro x hx hh
      simp [nodeIds] at hnd hx
      obtain ⟨m, hm, hmx⟩ := hx
      exact hnd.1 m hm (by rw [hmx, hh])
    rw [initMaps, aupdate_not_mem hidd, aupdate_not_mem hida,
      ih _ _ hnd' ?_ ?_]
    · simp
    · intro x hx
      rw [akeys, List.map_append]
      intro hmem
      rcases List.mem_append.mp hmem with hmem | hmem
      · exact hd x (hsub x hx) (by simpa [akeys] using hmem)
      · simp at hmem
        exact hne x hx hmem
    · intro x hx
      rw [akeys, List.map_append]
      intro hmem
      rcases List.mem_append.mp hmem with hmem | hmem
      · exact ha x (hsub x hx) (by simpa [akeys] using hmem)
      · simp at hmem
        exact hne x hx hmem

theorem buildGraph_deg : ∀ (cs : List Connection) (d : List (String × Int))
    (a : List (String × List String)) (v : String),
    (alookup v (buildGraph d a cs).1).getD 0 =
      (alookup v d).getD 0 + ((cs.filter (fun c => decide (c.target = v))).length : Int) := by
  intro cs
  induction cs with
  | nil => intro d a v; simp [buildGraph]
  | cons c rest ih =>
    intro d a v
    rw [buildGraph, ih]
    by_cases ht : c.target = v
    · subst ht
      rw [alookup_aupdate_self]
      simp [List.filter]
      omega
    · rw [alookup_aupdate_ne ht]
      simp [List.filter, ht]

theorem buildGraph_adj : ∀ (cs : List Connection) (d : List (String × Int))
    (a : List (String × List String)) (u : String),
    (alookup u (buildGraph d a cs).2).getD [] = (alookup u a).getD [] ++ connTargets cs u := by
  intro cs
  induction cs with
  | nil => intro d a u; simp [buildGraph, connTargets]
  | cons c rest ih =>
    intro d a u
    rw [buildGraph, ih]
    by_cases hs : c.source = u
    · subst hs
      rw [alookup_aupdate_self]
      simp [connTargets, List.filter]
    · rw [alookup_aupdate_ne hs]
      simp [connTargets, List.filter, hs]

theorem buildGraph_keys : ∀ (cs : List Connection) (d : List (String × Int))
    (a : List (String × List String)), (∀ c ∈ cs, c.target ∈ akeys d) →
    akeys (buildGraph d a cs).1 = akeys d := by
  intro cs
  induction cs with
  | nil => intro d a _; simp [buildGraph]
  | cons c rest ih =>
    intro d a h
    rw [buildGraph, ih]
    · exact akeys_aupdate_mem (h c (by simp)) _
    · intro c' hc'
      rw [akeys_aupdate_mem (h c (by simp))]
      exact h c' (List.mem_cons_of_mem _ hc')

theorem buildGraph_keys_len : ∀ (cs : List Connection) (d : List (String × Int))
    (a : List (String × List String)),
    (buildGraph d a cs).1.length ≤ d.length + cs.length := by
  intro cs
  induction cs with
  | nil => intro d a; simp [buildGraph]
  | cons c rest ih =>
    intro d a
    rw [buildGraph]
    have hup : (aupdate c.target (fun v => v.getD 0 + 1) d).length ≤ d.length + 1 := by
      clear ih
      induction d with
      | nil => simp [aupdate]
      | cons p ds ihd =>
        by_cases hp : p.1 = c.target
        · simp [aupdate, hp]
        · simp [aupdate, hp] at ihd ⊢
          omega
    calc (buildGraph (aupdate c.target (fun v => v.getD 0 + 1) d)
            (aupdate c.source (fun v => v.getD [] ++ [c.target]) a) rest).1.length
        ≤ (aupdate c.target (fun v => v.getD 0 + 1) d).length + rest.length := ih _ _
      _ ≤ d.length + 1 + rest.length := by omega
      _ = d.length + (rest.length + 1) := by omega

/-! ## Characterization of the successor-processing loop -/

theorem processNeighbors_spec : ∀ (ws : List String) (d : List (String × Int)) (q : List String),
    (∀ v ∈ ws, v ∈ akeys d) →
    (∀ v ∈ ws, (ws.count v : Int) ≤ (alookup v d).getD 0) →
    akeys (processNeighbors d q ws).1 = akeys d ∧
    (∀ v, (alookup v (processNeighbors d q ws).1).getD 0 =
      (alookup v d).getD 0 - ws.count v) ∧
    (∀ v, v ∉ ws → alookup v (processNeighbors d q ws).1 = alookup v d) ∧
    ∃ extra, (processNeighbors d q ws).2 = q ++ extra ∧ extra.Nodup ∧
      (∀ v, v ∈ extra ↔ v ∈ ws ∧ (alookup v (processNeighbors d q ws).1).getD 0 = 0) := by
  intro ws
  induction ws with
  | nil =>
    intro d q _ _
    refine ⟨rfl, by simp [processNeighbors], fun v _ => rfl, [], by simp [processNeighbors], by simp, by simp⟩
  | cons nb rest ih =>
    intro d q hk hge
    have hnbk : nb ∈ akeys d := hk nb (by simp)
    have hkeys1 : akeys (aupdate nb (fun v => v.getD 0 - 1) d) = akeys d :=
      akeys_aupdate_mem hnbk _
    have hl1self : alookup nb (aupdate nb (fun v => v.getD 0 - 1) d) =
        some ((alookup nb d).getD 0 - 1) := alookup_aupdate_self nb _ d
    have hl1ne : ∀ v, v ≠ nb → alookup v (aupdate nb (fun v => v.getD 0 - 1) d) = alookup v d :=
      fun v hv => alookup_aupdate_ne (Ne.symm hv) _ d
    have hcountN : ∀ v : String, (nb :: rest).count v =
        rest.count v + (if v = nb then 1 else 0) := by
      intro v
      by_cases hv : v = nb <;> simp [List.count_cons, hv]
    set d1 := aupdate nb (fun v => v.getD 0 - 1) d with hd1
    set q1 := if (alookup nb d1).getD 0 = 0 then q ++ [nb] else q with hq1
    have hstep : processNeighbors d q (nb :: rest) = processNeighbors d1 q1 rest := by
      simp only [processNeighbors]
    have hk' : ∀ v ∈ rest, v ∈ akeys d1 := by
      intro v hv
      rw [hkeys1]
      exact hk v (List.mem_cons_of_mem _ hv)
    have hge' : ∀ v ∈ rest, ((rest.count v : Int)) ≤ (alookup v d1).getD 0 := by
      intro v hv
      by_cases hveq : v = nb
      · subst hveq
        have h1 := hge v (by simp)
        simp [List.count_cons] at h1
        rw [hl1self]
        simp
        omega
      · rw [hl1ne v hveq]
        have h1 := hge v (List.mem_cons_of_mem _ hv)
        simp [List.count_cons, hveq] at h1
        omega
    obtain ⟨ihkeys, ihval, ihunch, extra', ihq, ihnd, ihiff⟩ := ih d1 q1 hk' hge'
    have hval : ∀ v, (alookup v (processNeighbors d1 q1 rest).1).getD 0 =
        (alookup v d).getD 0 - (nb :: rest).count v := by
      intro v
      by_cases hveq : v = nb
      · subst hveq
        rw [ihval v, hl1self]
        simp [List.count_cons]
        omega
      · rw [ihval v, hl1ne v hveq]
        simp [List.count_cons, hveq]
    have hnb_rest : (alookup nb d1).getD 0 = 0 → nb ∉ rest := by
      intro hz hmem
      have := hge' nb hmem
      rw [hz] at this
      have : (rest.count nb : Int) ≤ 0 := this
      have hpos : 0 < rest.count nb := List.count_pos_iff.mpr hmem
      omega
    refine ⟨hstep ▸ (ihkeys.trans hkeys1), hstep ▸ hval, ?_, ?_⟩
    · intro v hv
      have hvnb : v ≠ nb := fun hh => hv (hh ▸ List.mem_cons_self nb rest)
      have hvrest : v ∉ rest := fun hh => hv (List.mem_cons_of_mem _ hh)
      rw [hstep, ihunch v hvrest, hl1ne v hvnb]
    · by_cases henq : (alookup nb d1).getD 0 = 0
      · have hq1eq : q1 = q ++ [nb] := by rw [hq1, if_pos henq]
        have hnbrest : nb ∉ rest := hnb_rest henq
        have hnbex : nb ∉ extra' := by
          intro hmem
          exact hnbrest ((ihiff nb).mp hmem).1
        refine ⟨nb :: extra', ?_, ?_, ?_⟩
        · rw [hstep, ihq, hq1eq]
          simp
        · exact List.nodup_cons.mpr ⟨hnbex, ihnd⟩
        · intro v
          rw [hstep]
          constructor
          · intro hmem
            rcases List.mem_cons.mp hmem with hveq | hmem'
            · subst hveq
              refine ⟨by simp, ?_⟩
              rw [ihunch v hnbrest]
              exact henq
            · obtain ⟨h1, h2⟩ := (ihiff v).mp hmem'
              exact ⟨List.mem_cons_of_mem _ h1, h2⟩
          · intro ⟨hmem, hz⟩
            rcases List.mem_cons.mp hmem with hveq | hmem'
            · exact hveq ▸ List.mem_cons_self nb extra'
            · exact List.mem_cons_of_mem _ ((ihiff v).mpr ⟨hmem', hz⟩)
      · have hq1eq : q1 = q := by rw [hq1, if_neg henq]
        refine ⟨extra', by rw [hstep, ihq, hq1eq], ihnd, ?_⟩
        intro v
        rw [hstep]
        constructor
        · intro hmem
          obtain ⟨h1, h2⟩ := (ihiff v).mp hmem
          exact ⟨List.mem_cons_of_mem _ h1, h2⟩
        · intro ⟨hmem, hz⟩
          rcases List.mem_cons.mp hmem with hveq | hmem'
          · subst hveq
            have hvrest : v ∈ rest := by
              by_contra hno
              rw [ihunch v hno] at hz
              exact henq hz
            exact (ihiff v).mpr ⟨hvrest, hz⟩
          · exact (ihiff v).mpr ⟨hmem', hz⟩

/-! ## The Kahn loop invariant and its preservation -/

/-- Sum over all node identifiers of the pending in-degree. -/
def pendSum (ns : List Node) (cs : List Connection) (s : List String) : Nat :=
  ((nodeIds ns).map (fun v => pendCount cs s v)).sum

theorem pendSum_split {u : String} {s : List String} (hu : u ∉ s)
    (ns : List Node) (cs : List Connection) :
    pendSum ns cs s =
      ((nodeIds ns).map (fun v => countConn cs u v)).sum + pendSum ns cs (s ++ [u]) := by
  unfold pendSum
  rw [← sum_map_add]
  congr 1
  exact List.map_congr_left fun v _ => pendCount_split hu cs v

theorem sum_countConn {ns : List Node} {cs : List Connection} {u : String}
    (hwfn : (nodeIds ns).Nodup) (hsub : ∀ v ∈ connTargets cs u, v ∈ nodeIds ns) :
    ((nodeIds ns).map (fun v => countConn cs u v)).sum = (connTargets cs u).length := by
  calc ((nodeIds ns).map (fun v => countConn cs u v)).sum
      = ((nodeIds ns).map (fun v => (connTargets cs u).count v)).sum := by
        congr 1
        exact List.map_congr_left fun v _ => (count_connTargets cs u v).symm
    _ = _ := sum_counts_eq_length hwfn hsub

theorem length_le_of_nodup_subset {l1 l2 : List String} (hn : l1.Nodup)
    (hs : ∀ x ∈ l1, x ∈ l2) : l1.length ≤ l2.length := by
  classical
  have h1 : l1.toFinset.card = l1.length := List.toFinset_card_of_nodup hn
  have h2 : l1.toFinset ⊆ l2.toFinset := by
    intro x hx
    rw [List.mem_toFinset] at hx ⊢
    exact hs x hx
  calc l1.length = l1.toFinset.card := h1.symm
    _ ≤ l2.toFinset.card := Finset.card_le_card h2
    _ ≤ l2.length := l2.toFinset_card_le

/-- The invariant of the Kahn worklist loop: d is the in-degree map, q the
queue, s the emitted order so far. -/
structure KahnInv (ns : List Node) (cs : List Connection)
    (d : List (String × Int)) (q s : List String) : Prop where
  keys_eq : akeys d = nodeIds ns
  nodup : (s ++ q).Nodup
  s_sub : ∀ x ∈ s, x ∈ nodeIds ns
  q_sub : ∀ x ∈ q, x ∈ nodeIds ns
  deg_eq : ∀ v ∈ nodeIds ns, alookup v d = some ((pendCount cs s v : Int))
  done_zero : ∀ v, v ∈ s ∨ v ∈ q → pendCount cs s v = 0
  zero_done : ∀ v ∈ nodeIds ns, pendCount cs s v = 0 → v ∈ s ∨ v ∈ q
  ordered : ∀ c ∈ cs, c.target ∈ s → c.source ∈ s ∧ pos c.source s < pos c.target s

theorem kahnLoop_spec (ns : List Node) (cs : List Connection)
    (hwf : Wellformed ns cs) (adj : List (String × List String))
    (hadj : ∀ u, adjGet adj u = connTargets cs u) :
    ∀ fuel (d : List (String × Int)) (q s : List String), KahnInv ns cs d q s →
      q.length + pendSum ns cs s < fuel →
      ∃ t, kahnLoop adj fuel d q s = s ++ t ∧
        (kahnLoop adj fuel d q s).Nodup ∧
        (∀ x ∈ kahnLoop adj fuel d q s, x ∈ nodeIds ns) ∧
        (∀ c ∈ cs, c.target ∈ kahnLoop adj fuel d q s →
          c.source ∈ kahnLoop adj fuel d q s ∧
          pos c.source (kahnLoop adj fuel d q s) < pos c.target (kahnLoop adj fuel d q s)) ∧
        (∀ v ∈ nodeIds ns, pendCount cs (kahnLoop adj fuel d q s) v = 0 →
          v ∈ kahnLoop adj fuel d q s) := by
  intro fuel
  induction fuel with
  | zero => intro d q s _ hlt; omega
  | succ fuel ih =>
    intro d q s inv hlt
    match q with
    | [] =>
      refine ⟨[], by simp [kahnLoop], ?_, ?_, ?_, ?_⟩
      · have := inv.nodup
        simpa [kahnLoop] using this
      · intro x hx
        exact inv.s_sub x (by simpa [kahnLoop] using hx)
      · intro c hc ht
        have h := inv.ordered c hc (by simpa [kahnLoop] using ht)
        simpa [kahnLoop] using h
      · intro v hv hz
        have h := inv.zero_done v hv (by simpa [kahnLoop] using hz)
        rcases h with h | h
        · simpa [kahnLoop] using h
        · simp at h
    | u :: rest =>
      have hstep : kahnLoop adj (fuel + 1) d (u :: rest) s =
          kahnLoop adj fuel (processNeighbors d rest (adjGet adj u)).1
            (processNeighbors d rest (adjGet adj u)).2 (s ++ [u]) := rfl
      have hwfn : (nodeIds ns).Nodup := hwf.1
      have hu_nid : u ∈ nodeIds ns := inv.q_sub u (by simp)
      have hbase : (s ++ u :: rest).Nodup := inv.nodup
      have hsplit3 := List.nodup_append.mp hbase
      have hs_nodup : s.Nodup := hsplit3.1
      have hur_nodup : (u :: rest).Nodup := hsplit3.2.1
      have hdisj : s.Disjoint (u :: rest) := hsplit3.2.2
      have hu_not_s : u ∉ s := fun hh => hdisj hh (by simp)
      have hu_not_rest : u ∉ rest := (List.nodup_cons.mp hur_nodup).1
      have hrest_nodup : rest.Nodup := (List.nodup_cons.mp hur_nodup).2
      have hdegu : pendCount cs s u = 0 := inv.done_zero u (Or.inr (by simp))
      have hws : adjGet adj u = connTargets cs u := hadj u
      have hws_sub : ∀ v ∈ adjGet adj u, v ∈ nodeIds ns := by
        intro v hv
        rw [hws] at hv
        obtain ⟨c, hc, _, ht⟩ := mem_connTargets.mp hv
        exact ht ▸ (hwf.2 c hc).2
      have hk : ∀ v ∈ adjGet adj u, v ∈ akeys d := by
        intro v hv
        rw [inv.keys_eq]
        exact hws_sub v hv
      have hcnt_eq : ∀ v, (adjGet adj u).count v = countConn cs u v := by
        intro v
        rw [hws]
        exact count_connTargets cs u v
      have hpend_split : ∀ v, pendCount cs s v = countConn cs u v + pendCount cs (s ++ [u]) v :=
        fun v => pendCount_split hu_not_s cs v
      have hge : ∀ v ∈ adjGet adj u, ((adjGet adj u).count v : Int) ≤ (alookup v d).getD 0 := by
        intro v hv
        rw [inv.deg_eq v (hws_sub v hv)]
        rw [hcnt_eq v]
        have := hpend_split v
        simp
        omega
      obtain ⟨pnkeys, pnval, pnunch, extra, pnq, pnnd, pniff⟩ :=
        processNeighbors_spec (adjGet adj u) d rest hk hge
      have hkeys' : akeys (processNeighbors d rest (adjGet adj u)).1 = nodeIds ns :=
        pnkeys.trans inv.keys_eq
      have hval' : ∀ v ∈ nodeIds ns,
          alookup v (processNeighbors d rest (adjGet adj u)).1 =
            some ((pendCount cs (s ++ [u]) v : Int)) := by
        intro v hv
        obtain ⟨x, hx⟩ := alookup_isSome_of_mem_akeys (m := (processNeighbors d rest (adjGet adj u)).1)
          (by rw [hkeys']; exact hv)
        have hgd := pnval v
        rw [hx, inv.deg_eq v hv] at hgd
        simp at hgd
        rw [hcnt_eq v] at hgd
        have hsp := hpend_split v
        rw [hx]
        congr 1
        omega
      have hextra_char : ∀ v, v ∈ extra ↔ v ∈ adjGet adj u ∧ pendCount cs (s ++ [u]) v = 0 := by
        intro v
        rw [pniff v]
        constructor
        · intro ⟨h1, h2⟩
          refine ⟨h1, ?_⟩
          rw [hval' v (hws_sub v h1)] at h2
          simpa using h2
        · intro ⟨h1, h2⟩
          refine ⟨h1, ?_⟩
          rw [hval' v (hws_sub v h1)]
          simpa using h2
      have hextra_pos : ∀ v ∈ extra, pendCount cs s v ≠ 0 := by
        intro v hv
        obtain ⟨h1, _⟩ := (hextra_char v).mp hv
        have hc1 : countConn cs u v ≠ 0 := by
          rw [← hcnt_eq v]
          exact fun hh => by
            have := List.count_pos_iff.mpr h1
            omega
        have := hpend_split v
        omega
      have hextra_not_s : ∀ v ∈ extra, v ∉ s :=
        fun v hv hh => hextra_pos v hv (inv.done_zero v (Or.inl hh))
      have hextra_not_u : ∀ v ∈ extra, v ≠ u :=
        fun v hv hh => hextra_pos v hv (hh ▸ hdegu)
      have hextra_not_rest : ∀ v ∈ extra, v ∉ rest :=
        fun v hv hh => hextra_pos v hv (inv.done_zero v (Or.inr (by simp [hh])))
      have hextra_sub : ∀ v ∈ extra, v ∈ nodeIds ns :=
        fun v hv => hws_sub v ((hextra_char v).mp hv).1
      have inv' : KahnInv ns cs (processNeighbors d rest (adjGet adj u)).1
          (processNeighbors d rest (adjGet adj u)).2 (s ++ [u]) := by
        refine ⟨hkeys', ?_, ?_, ?_, hval', ?_, ?_, ?_⟩
        · rw [pnq]
          rw [List.nodup_append]
          refine ⟨?_, ?_, ?_⟩
          · rw [List.nodup_append]
            refine ⟨hs_nodup, List.nodup_singleton u, ?_⟩
            intro x hx hh
            simp at hh
            subst hh
            exact hu_not_s hx
          · rw [List.nodup_append]
            refine ⟨hrest_nodup, pnnd, fun x hx hh => hextra_not_rest x hh hx⟩
          · intro x hx hh
            rcases List.mem_append.mp hx with hx | hx
            · rcases List.mem_append.mp hh with hh | hh
              · exact hdisj hx (List.mem_cons_of_mem _ hh)
              · exact hextra_not_s x hh hx
            · simp at hx
              subst hx
              rcases List.mem_append.mp hh with hh | hh
              · exact hu_not_rest hh
              · exact hextra_not_u x hh rfl
        · intro x hx
          rcases List.mem_append.mp hx with hx | hx
          · exact inv.s_sub x hx
          · simp at hx
            exact hx ▸ hu_nid
        · intro x hx
          rw [pnq] at hx
          rcases List.mem_append.mp hx with hx | hx
          · exact inv.q_sub x (List.mem_cons_of_mem _ hx)
          · exact hextra_sub x hx
        · intro v hv
          rw [pnq] at hv
          rcases hv with hv | hv
          · rcases List.mem_append.mp hv with hv | hv
            · exact pendCount_zero_of_sub (fun x hx => List.mem_append_left _ hx)
                (inv.done_zero v (Or.inl hv))
            · simp at hv
              subst hv
              exact pendCount_zero_of_sub (fun x hx => List.mem_append_left _ hx) hdegu
          · rcases List.mem_append.mp hv with hv | hv
            · have h0 : pendCount cs s v = 0 := inv.done_zero v (Or.inr (List.mem_cons_of_mem _ hv))
              have := hpend_split v
              omega
            · exact ((hextra_char v).mp hv).2
        · intro v hv hz
          by_cases h0 : pendCount cs s v = 0
          · rcases inv.zero_done v hv h0 with h | h
            · exact Or.inl (List.mem_append_left _ h)
            · rcases List.mem_cons.mp h with h | h
              · exact Or.inl (h ▸ List.mem_append_right _ (by simp))
              · exact Or.inr (by rw [pnq]; exact List.mem_append_left _ h)
          · have hsp := hpend_split v
            have hcpos : countConn cs u v ≠ 0 := by omega
            obtain ⟨c, hc, hcs, hct⟩ := countConn_pos_witness hcpos
            have hvws : v ∈ adjGet adj u := by
              rw [hws]
              exact mem_connTargets.mpr ⟨c, hc, hcs, hct⟩
            have hvex : v ∈ extra := (hextra_char v).mpr ⟨hvws, hz⟩
            refine Or.inr ?_
            rw [pnq]
            exact List.mem_append_right _ hvex
        · intro c hc ht
          rcases List.mem_append.mp ht with ht | ht
          · obtain ⟨h1, h2⟩ := inv.ordered c hc ht
            refine ⟨List.mem_append_left _ h1, ?_⟩
            rw [pos_append_left h1, pos_append_left ht]
            exact h2
          · simp at ht
            have hsrc : c.source ∈ s := by
              by_contra hno
              exact pendCount_ne_zero_of_witness hc ht hno hdegu
            refine ⟨List.mem_append_left _ hsrc, ?_⟩
            rw [pos_append_left hsrc, ht, pos_append_self hu_not_s]
            exact pos_lt_length hsrc
      have hmeas : (processNeighbors d rest (adjGet adj u)).2.length +
          pendSum ns cs (s ++ [u]) < fuel := by
        have hss := pendSum_split hu_not_s ns cs
        have hcc : ((nodeIds ns).map (fun v => countConn cs u v)).sum = (adjGet adj u).length := by
          calc ((nodeIds ns).map (fun v => countConn cs u v)).sum
              = ((nodeIds ns).map (fun v => (adjGet adj u).count v)).sum := by
                congr 1
                exact List.map_congr_left fun v _ => (hcnt_eq v).symm
            _ = _ := sum_counts_eq_length hwfn hws_sub
        have hexlen : extra.length ≤ (adjGet adj u).length :=
          length_le_of_nodup_subset pnnd (fun x hx => ((hextra_char x).mp hx).1)
        have hq2 : (processNeighbors d rest (adjGet adj u)).2.length =
            rest.length + extra.length := by
          rw [pnq, List.length_append]
        simp [List.length_cons] at hlt
        omega
      obtain ⟨t', ht1, ht2, ht3, ht4, ht5⟩ := ih _ _ _ inv' hmeas
      rw [hstep]
      exact ⟨u :: t', by rw [ht1]; simp, ht2, ht3, ht4, ht5⟩

/-! ## Characterization of topologicalSort on well-formed graphs -/

theorem alookup_map_zero : ∀ (ns : List Node) (v : String), v ∈ nodeIds ns →
    alookup v (ns.map (fun n => (n.id, (0 : Int)))) = some 0 := by
  intro ns
  induction ns with
  | nil => intro v hv; simp [nodeIds] at hv
  | cons n rest ih =>
    intro v hv
    by_cases hn : n.id = v
    · simp [alookup, hn]
    · have : v ∈ nodeIds rest := by
        simp [nodeIds] at hv ⊢
        rcases hv with hv | hv
        · exact absurd hv.symm hn
        · exact hv
      simp [alookup, hn, ih v this]

theorem getD_map_nil : ∀ (ns : List Node) (u : String),
    (alookup u (ns.map (fun n => (n.id, ([] : List String))))).getD [] = [] := by
  intro ns
  induction ns with
  | nil => intro u; simp [alookup]
  | cons n rest ih =>
    intro u
    by_cases hn : n.id = u
    · simp [alookup, hn]
    · simp [alookup, hn, ih u]

theorem akeys_map_pair {α : Type _} (ns : List Node) (f : Node → α) :
    akeys (ns.map (fun n => (n.id, f n))) = nodeIds ns := by
  simp [akeys, nodeIds, List.map_map]

theorem pendCount_nil (cs : List Connection) (v : String) :
    pendCount cs [] v = (cs.filter (fun c => decide (c.target = v))).length := by
  unfold pendCount
  congr 1
  apply List.filter_congr
  intro c _
  simp

theorem filter_target_count (cs : List Connection) (v : String) :
    (cs.filter (fun c => decide (c.target = v))).length = (cs.map Connection.target).count v := by
  induction cs with
  | nil => simp
  | cons c rest ih =>
    by_cases ht : c.target = v
    · simp [List.filter, ht, List.count_cons] at ih ⊢
      omega
    · simp [List.filter, ht, List.count_cons, Ne.symm ht] at ih ⊢
      exact ih

/-- Running topologicalSort on a well-formed graph: the produced order is
duplicate-free, contains only node identifiers, respects every connection
whose target it contains, and contains every node all of whose incoming
sources it contains. -/
theorem topologicalSort_run (ns : List Node) (cs : List Connection) (hwf : Wellformed ns cs) :
    ∃ sorted : List String,
      topologicalSort ns cs =
        (if sorted.length ≠ ns.length then Except.error "pipeline contains a cycle"
         else Except.ok sorted) ∧
      sorted.Nodup ∧ (∀ x ∈ sorted, x ∈ nodeIds ns) ∧
      (∀ c ∈ cs, c.target ∈ sorted →
        c.source ∈ sorted ∧ pos c.source sorted < pos c.target sorted) ∧
      (∀ v ∈ nodeIds ns, pendCount cs sorted v = 0 → v ∈ sorted) := by
  have hwfn : (nodeIds ns).Nodup := hwf.1
  have him : initMaps [] [] ns = (ns.map (fun n => (n.id, (0 : Int))),
      ns.map (fun n => (n.id, ([] : List String)))) :=
    initMaps_eq ns [] [] hwfn (by simp [akeys]) (by simp [akeys])
  set d0 : List (String × Int) := ns.map (fun n => (n.id, (0 : Int))) with hd0
  set a0 : List (String × List String) := ns.map (fun n => (n.id, ([] : List String))) with ha0
  have hkeys0 : akeys d0 = nodeIds ns := akeys_map_pair ns _
  set d : List (String × Int) := (buildGraph d0 a0 cs).1 with hd
  set a : List (String × List String) := (buildGraph d0 a0 cs).2 with ha
  have hkeysd : akeys d = nodeIds ns := by
    rw [hd, buildGraph_keys cs d0 a0 ?_]
    · exact hkeys0
    · intro c hc
      rw [hkeys0]
      exact (hwf.2 c hc).2
  have hdeg : ∀ v ∈ nodeIds ns, alookup v d = some ((pendCount cs [] v : Int)) := by
    intro v hv
    obtain ⟨x, hx⟩ := alookup_isSome_of_mem_akeys (m := d) (by rw [hkeysd]; exact hv)
    have hgd := buildGraph_deg cs d0 a0 v
    rw [← hd, hx, alookup_map_zero ns v hv] at hgd
    simp at hgd
    rw [hx, pendCount_nil]
    exact congrArg some hgd
  have hadj : ∀ u, adjGet a u = connTargets cs u := by
    intro u
    unfold adjGet
    rw [ha, buildGraph_adj cs d0 a0 u, getD_map_nil]
    simp
  set q0 : List String := (d.filter (fun p => decide (p.2 = 0))).map Prod.fst with hq0
  have hq0sub : q0.Sublist (akeys d) := (List.filter_sublist d).map Prod.fst
  have hq0nd : q0.Nodup := (hkeysd ▸ hwfn).sublist hq0sub
  have hq0mem : ∀ v, v ∈ q0 ↔ v ∈ nodeIds ns ∧ pendCount cs [] v = 0 := by
    intro v
    constructor
    · intro hv
      rw [hq0] at hv
      obtain ⟨⟨p1, p2⟩, hpf, hpv⟩ := List.mem_map.mp hv
      simp at hpv
      subst hpv
      have hpd : (p1, p2) ∈ d := (List.mem_filter.mp hpf).1
      have hp2 : p2 = 0 := by simpa using (List.mem_filter.mp hpf).2
      subst hp2
      have hvk : p1 ∈ nodeIds ns := by
        rw [← hkeysd]
        simpa [akeys] using List.mem_map_of_mem Prod.fst hpd
      refine ⟨hvk, ?_⟩
      have hl := alookup_of_mem_nodup (hkeysd ▸ hwfn) hpd
      rw [hdeg p1 hvk] at hl
      have := Option.some.inj hl
      omega
    · intro ⟨hvk, hz⟩
      have hl := hdeg v hvk
      rw [hz] at hl
      have hmemd : (v, (0 : Int)) ∈ d := mem_of_alookup (by simpa using hl)
      rw [hq0]
      exact List.mem_map.mpr ⟨(v, (0 : Int)), List.mem_filter.mpr ⟨hmemd, by simp⟩, rfl⟩
  have inv0 : KahnInv ns cs d q0 [] := by
    refine ⟨hkeysd, by simpa using hq0nd, by simp, ?_, ?_, ?_, ?_, by simp⟩
    · intro x hx
      exact ((hq0mem x).mp hx).1
    · intro v hv
      simpa using hdeg v hv
    · intro v hv
      rcases hv with hv | hv
      · simp at hv
      · exact ((hq0mem v).mp hv).2
    · intro v hv hz
      exact Or.inr ((hq0mem v).mpr ⟨hv, hz⟩)
  have hmeas : q0.length + pendSum ns cs [] < d.length + cs.length + 1 := by
    have h1 : q0.length ≤ d.length := by
      rw [hq0]
      simp
      exact List.length_filter_le _ _
    have h2 : pendSum ns cs [] ≤ cs.length := by
      unfold pendSum
      calc ((nodeIds ns).map (fun v => pendCount cs [] v)).sum
          = ((nodeIds ns).map (fun v => (cs.map Connection.target).count v)).sum := by
            congr 1
            apply List.map_congr_left
            intro v _
            rw [pendCount_nil, filter_target_count]
        _ ≤ (cs.map Connection.target).length := sum_counts_le_length hwfn
        _ = cs.length := by simp
    omega
  obtain ⟨t, ht1, ht2, ht3, ht4, ht5⟩ :=
    kahnLoop_spec ns cs hwf a hadj (d.length + cs.length + 1) d q0 [] inv0 hmeas
  refine ⟨kahnLoop a (d.length + cs.length + 1) d q0 [], ?_, ht2, ht3, ht4, ht5⟩
  unfold topologicalSort
  rw [him]

/-! ## Acyclicity versus success of the resolver -/

theorem length_eq_of_nodup_iff {l1 l2 : List String} (h1 : l1.Nodup) (h2 : l2.Nodup)
    (hm : ∀ x, x ∈ l1 ↔ x ∈ l2) : l1.length = l2.length := by
  classical
  have hts : l1.toFinset = l2.toFinset := by
    ext x
    simp [hm x]
  calc l1.length = l1.toFinset.card := (List.toFinset_card_of_nodup h1).symm
    _ = l2.toFinset.card := by rw [hts]
    _ = l2.length := List.toFinset_card_of_nodup h2

theorem mem_of_nodup_subset_length {l K : List String} (hn : l.Nodup) (hK : K.Nodup)
    (hs : ∀ x ∈ l, x ∈ K) (hlen : K.length ≤ l.length) : ∀ x ∈ K, x ∈ l := by
  classical
  have hsubF : l.toFinset ⊆ K.toFinset := by
    intro x hx
    rw [List.mem_toFinset] at hx ⊢
    exact hs x hx
  have hcard : K.toFinset.card ≤ l.toFinset.card := by
    rw [List.toFinset_card_of_nodup hn, List.toFinset_card_of_nodup hK]
    exact hlen
  have hts : l.toFinset = K.toFinset := Finset.eq_of_subset_of_card_le hsubF hcard
  intro x hx
  have : x ∈ K.toFinset := List.mem_toFinset.mpr hx
  rw [← hts] at this
  exact List.mem_toFinset.mp this

/-- A nonempty finite set in which every element has a predecessor inside
the set yields a directed cycle. -/
theorem cycle_of_stuck {cs : List Connection} {S : Finset String}
    (hne : S.Nonempty) (hstep : ∀ v ∈ S, ∃ w ∈ S, Edge cs w v) :
    ∃ v, Relation.TransGen (Edge cs) v v := by
  classical
  have hx : ∀ x : {x // x ∈ S}, ∃ y : {x // x ∈ S}, Edge cs y.1 x.1 := by
    rintro ⟨v, hv⟩
    obtain ⟨w, hw, he⟩ := hstep v hv
    exact ⟨⟨w, hw⟩, he⟩
  choose g hg using hx
  obtain ⟨v0, hv0⟩ := hne
  have hiter : ∀ m, 1 ≤ m → ∀ x : {x // x ∈ S},
      Relation.TransGen (Edge cs) (g^[m] x).1 x.1 := by
    intro m
    induction m with
    | zero => omega
    | succ m ihm =>
      intro _ x
      by_cases hm : m = 0
      · subst hm
        simpa using Relation.TransGen.single (hg x)
      · have h1 : Relation.TransGen (Edge cs) (g^[m] x).1 x.1 := ihm (by omega) x
        rw [Function.iterate_succ_apply' g m x]
        exact Relation.TransGen.head (hg (g^[m] x)) h1
  have hcard : Fintype.card {x // x ∈ S} < Fintype.card (Fin (S.card + 1)) := by
    simp [Fintype.card_coe]
  obtain ⟨i, j, hij, hmap⟩ :=
    Fintype.exists_ne_map_eq_of_card_lt (fun i : Fin (S.card + 1) => g^[i.1] ⟨v0, hv0⟩) hcard
  rcases Nat.lt_or_ge i.1 j.1 with hlt | hge
  · have hm1 : 1 ≤ j.1 - i.1 := by omega
    have hsplit : g^[j.1] ⟨v0, hv0⟩ = g^[j.1 - i.1] (g^[i.1] ⟨v0, hv0⟩) := by
      rw [← Function.iterate_add_apply]
      congr 1
      omega
    have hfix : g^[j.1 - i.1] (g^[i.1] ⟨v0, hv0⟩) = g^[i.1] ⟨v0, hv0⟩ := by
      rw [← hsplit]
      exact hmap.symm
    have := hiter (j.1 - i.1) hm1 (g^[i.1] ⟨v0, hv0⟩)
    rw [hfix] at this
    exact ⟨(g^[i.1] ⟨v0, hv0⟩).1, this⟩
  · have hlt2 : j.1 < i.1 := by
      rcases Nat.lt_or_ge j.1 i.1 with h | h
      · exact h
      · exact absurd (Fin.ext (by omega)) hij
    have hm1 : 1 ≤ i.1 - j.1 := by omega
    have hsplit : g^[i.1] ⟨v0, hv0⟩ = g^[i.1 - j.1] (g^[j.1] ⟨v0, hv0⟩) := by
      rw [← Function.iterate_add_apply]
      congr 1
      omega
    have hfix : g^[i.1 - j.1] (g^[j.1] ⟨v0, hv0⟩) = g^[j.1] ⟨v0, hv0⟩ := by
      rw [← hsplit]
      exact hmap
    have := hiter (i.1 - j.1) hm1 (g^[j.1] ⟨v0, hv0⟩)
    rw [hfix] at this
    exact ⟨(g^[j.1] ⟨v0, hv0⟩).1, this⟩

/-- On a well-formed acyclic graph topologicalSort succeeds, its order is a
permutation of the node identifiers, and every connection's source comes
before its target. -/
theorem topo_ok_of_acyclic {ns : List Node} {cs : List Connection}
    (hwf : Wellformed ns cs) (hacyc : Acyclic cs) :
    ∃ order, topologicalSort ns cs = Except.ok order ∧ order.Nodup ∧
      order.length = ns.length ∧ (∀ v, v ∈ order ↔ v ∈ nodeIds ns) ∧
      ∀ c ∈ cs, c.source ∈ order ∧ c.target ∈ order ∧
        pos c.source order < pos c.target order := by
  classical
  obtain ⟨sorted, hif, hnd, hsub, hord, hcomp⟩ := topologicalSort_run ns cs hwf
  have hall : ∀ v ∈ nodeIds ns, v ∈ sorted := by
    by_contra hno
    push_neg at hno
    obtain ⟨v0, hv0, hv0n⟩ := hno
    set S : Finset String := (nodeIds ns).toFinset.filter (fun v => v ∉ sorted) with hS
    have hmemS : ∀ v, v ∈ S ↔ v ∈ nodeIds ns ∧ v ∉ sorted := by
      intro v
      simp [hS]
    have hne : S.Nonempty := ⟨v0, (hmemS v0).mpr ⟨hv0, hv0n⟩⟩
    have hstep : ∀ v ∈ S, ∃ w ∈ S, Edge cs w v := by
      intro v hv
      obtain ⟨hvk, hvn⟩ := (hmemS v).mp hv
      have hpend : pendCount cs sorted v ≠ 0 := fun hz => hvn (hcomp v hvk hz)
      obtain ⟨c, hc, ht, hsrc⟩ := pendCount_pos_witness hpend
      have hwk : c.source ∈ nodeIds ns := (hwf.2 c hc).1
      exact ⟨c.source, (hmemS _).mpr ⟨hwk, hsrc⟩, ⟨c, hc, rfl, ht⟩⟩
    obtain ⟨v, hcyc⟩ := cycle_of_stuck hne hstep
    exact hacyc v hcyc
  have hiff : ∀ v, v ∈ sorted ↔ v ∈ nodeIds ns := fun v => ⟨hsub v, hall v⟩
  have hlen : sorted.length = ns.length := by
    have h1 : sorted.length = (nodeIds ns).length :=
      length_eq_of_nodup_iff hnd hwf.1 hiff
    rw [h1]
    simp [nodeIds]
  refine ⟨sorted, ?_, hnd, hlen, hiff, ?_⟩
  · rw [hif, if_neg (by omega)]
  · intro c hc
    have htm : c.target ∈ sorted := hall _ (hwf.2 c hc).2
    obtain ⟨hsm, hpos⟩ := hord c hc htm
    exact ⟨hsm, htm, hpos⟩

/-- If topologicalSort succeeds on a well-formed graph, that graph is
acyclic. -/
theorem acyclic_of_topo_ok {ns : List Node} {cs : List Connection} {order : List String}
    (hwf : Wellformed ns cs) (hok : topologicalSort ns cs = Except.ok order) :
    Acyclic cs := by
  obtain ⟨sorted, hif, hnd, hsub, hord, hcomp⟩ := topologicalSort_run ns cs hwf
  rw [hif] at hok
  by_cases hcond : sorted.length ≠ ns.length
  · rw [if_pos hcond] at hok
    exact absurd hok (by simp)
  · rw [if_neg hcond] at hok
    have hso : sorted = order := by
      injection hok
    subst hso
    have hlen : sorted.length = ns.length := by omega
    have hall : ∀ v ∈ nodeIds ns, v ∈ sorted := by
      apply mem_of_nodup_subset_length hnd hwf.1 hsub
      rw [hlen]
      simp [nodeIds]
    have hmono : ∀ a b, Relation.TransGen (Edge cs) a b →
        pos a sorted < pos b sorted := by
      intro a b hT
      induction hT with
      | single h =>
        obtain ⟨c, hc, hs, ht⟩ := h
        have htm : c.target ∈ sorted := hall _ (hwf.2 c hc).2
        obtain ⟨_, hpos⟩ := hord c hc htm
        rw [← hs, ← ht]
        exact hpos
      | tail hab hbc ih =>
        obtain ⟨c, hc, hs, ht⟩ := hbc
        have htm : c.target ∈ sorted := hall _ (hwf.2 c hc).2
        obtain ⟨_, hpos⟩ := hord c hc htm
        rw [← ht]
        exact Nat.lt_trans ih (by rw [hs] at hpos; exact hpos)
    intro v hT
    exact Nat.lt_irrefl _ (hmono v v hT)

/-! ## The zero-node pipeline -/

theorem buildGraph_pos : ∀ (cs : List Connection) (d : List (String × Int))
    (a : List (String × List String)), (∀ p ∈ d, 1 ≤ p.2) →
    ∀ p ∈ (buildGraph d a cs).1, 1 ≤ p.2 := by
  intro cs
  induction cs with
  | nil => intro d a h; exact h
  | cons c rest ih =>
    intro d a h
    apply ih
    intro p hp
    rcases mem_aupdate hp with hp' | hp'
    · exact h p hp'
    · rw [hp']
      match hl : alookup c.target d with
      | none => simp
      | some x =>
        have := h _ (mem_of_alookup hl)
        simp at this ⊢
        omega

theorem topologicalSort_nil (cs : List Connection) : topologicalSort [] cs = Except.ok [] := by
  have hpos : ∀ p ∈ (buildGraph [] [] cs).1, 1 ≤ p.2 := buildGraph_pos cs [] [] (by simp)
  have hfil : (buildGraph ([] : List (String × Int)) [] cs).1.filter
      (fun p => decide (p.2 = 0)) = [] := by
    rw [List.filter_eq_nil_iff]
    intro p hp
    have := hpos p hp
    simp
    omega
  simp only [topologicalSort, initMaps]
  rw [hfil]
  simp [kahnLoop]

/-! ## Executor: bookkeeping lemmas for the per-node loop -/

/-- Whether a store event is a log append. -/
def isLogEvent {V : Type _} : StoreEvent V → Bool
  | StoreEvent.logEntry _ _ _ _ _ => true
  | _ => false

theorem runLoop_append_ok {V : Type _} (reg : Registry V) (cfgNodes : List Node)
    (cs : List Connection) (eid : String) :
    ∀ (l1 l2 : List String) (results r : List (String × List V)) (E : List (StoreEvent V)),
      runLoop reg cfgNodes cs eid l1 results = (E, Except.ok r) →
      runLoop reg cfgNodes cs eid (l1 ++ l2) results =
        (E ++ (runLoop reg cfgNodes cs eid l2 r).1,
         (runLoop reg cfgNodes cs eid l2 r).2) := by
  intro l1
  induction l1 with
  | nil =>
    intro l2 results r E h
    simp [runLoop] at h
    obtain ⟨h1, h2⟩ := h
    subst h1
    subst h2
    simp
  | cons nodeID rest ih =>
    intro l2 results r E h
    match hfn : findNode cfgNodes nodeID with
    | none =>
      simp only [runLoop, hfn] at h ⊢
      exact ih l2 results r E h
    | some nd =>
      match hreg : alookup nd.type reg with
      | none =>
        simp [runLoop, hfn, hreg] at h
      | some impl =>
        match hex : impl.execute nd.config (gatherInputs nodeID cs results) with
        | (nlogs, Except.error msg) =>
          simp [runLoop, hfn, hreg, hex] at h
        | (nlogs, Except.ok output) =>
          simp only [runLoop, hfn, hreg, hex] at h ⊢
          match hrest : runLoop reg cfgNodes cs eid rest
              (aupdate nodeID (fun _ => output) results) with
          | (E', res') =>
            rw [hrest] at h
            simp at h
            obtain ⟨hE, hres⟩ := h
            subst hres
            simp only [List.append_eq]
            rw [ih l2 (aupdate nodeID (fun _ => output) results) r E' hrest]
            rw [← hE]
            simp

theorem runLoop_append_error {V : Type _} (reg : Registry V) (cfgNodes : List Node)
    (cs : List Connection) (eid : String) :
    ∀ (l1 l2 : List String) (results : List (String × List V)) (E : List (StoreEvent V))
      (e : EngineError),
      runLoop reg cfgNodes cs eid l1 results = (E, Except.error e) →
      runLoop reg cfgNodes cs eid (l1 ++ l2) results = (E, Except.error e) := by
  intro l1
  induction l1 with
  | nil =>
    intro l2 results E e h
    simp [runLoop] at h
  | cons nodeID rest ih =>
    intro l2 results E e h
    match hfn : findNode cfgNodes nodeID with
    | none =>
      simp only [runLoop, hfn] at h ⊢
      exact ih l2 results E e h
    | some nd =>
      match hreg : alookup nd.type reg with
      | none =>
        simp only [runLoop, hfn, hreg] at h ⊢
        exact h
      | some impl =>
        match hex : impl.execute nd.config (gatherInputs nodeID cs results) with
        | (nlogs, Except.error msg) =>
          simp only [runLoop, hfn, hreg, hex] at h ⊢
          exact h
        | (nlogs, Except.ok output) =>
          simp only [runLoop, hfn, hreg, hex] at h ⊢
          match hrest : runLoop reg cfgNodes cs eid rest
              (aupdate nodeID (fun _ => output) results) with
          | (E', res') =>
            rw [hrest] at h
            simp at h
            obtain ⟨hE, hres⟩ := h
            subst hres
            simp only [List.append_eq]
            rw [ih l2 (aupdate nodeID (fun _ => output) results) E' e hrest]
            rw [← hE]
            simp

theorem isLog_nodeLogEvents {V : Type _} (eid : String) :
    ∀ (ls : List (String × String × String)),
      ∀ ev ∈ nodeLogEvents (V := V) eid ls, isLogEvent ev = true := by
  intro ls
  induction ls with
  | nil => intro ev hev; simp [nodeLogEvents] at hev
  | cons p rest ih =>
    intro ev hev
    have hcons : nodeLogEvents (V := V) eid (p :: rest) =
        StoreEvent.logEntry eid p.1 p.2.1 p.2.2 none :: nodeLogEvents eid rest := rfl
    rw [hcons] at hev
    rcases List.mem_cons.mp hev with h | h
    · rw [h]
      rfl
    · exact ih ev h

/-- Every event emitted by the per-node loop is a log append (execution
record updates happen only in Execute). -/
theorem runLoop_events_log {V : Type _} (reg : Registry V) (cfgNodes : List Node)
    (cs : List Connection) (eid : String) :
    ∀ (l : List String) (results : List (String × List V)),
      ∀ ev ∈ (runLoop reg cfgNodes cs eid l results).1, isLogEvent ev = true := by
  intro l
  induction l with
  | nil => intro results ev hev; simp [runLoop] at hev
  | cons nodeID rest ih =>
    intro results ev hev
    match hfn : findNode cfgNodes nodeID with
    | none =>
      simp only [runLoop, hfn] at hev
      exact ih results ev hev
    | some nd =>
      match hreg : alookup nd.type reg with
      | none => simp [runLoop, hfn, hreg] at hev
      | some impl =>
        match hex : impl.execute nd.config (gatherInputs nodeID cs results) with
        | (nlogs, Except.error msg) =>
          simp only [runLoop, hfn, hreg, hex] at hev
          rcases List.mem_append.mp hev with hev | hev
          · exact isLog_nodeLogEvents eid nlogs ev hev
          · simp at hev
            rw [hev]
            rfl
        | (nlogs, Except.ok output) =>
          simp only [runLoop, hfn, hreg, hex] at hev
          match hrest : runLoop reg cfgNodes cs eid rest
              (aupdate nodeID (fun _ => output) results) with
          | (E', res') =>
            rw [hrest] at hev
            rcases List.mem_append.mp hev with hev | hev
            · rcases List.mem_append.mp hev with hev | hev
              · exact isLog_nodeLogEvents eid nlogs ev hev
              · simp at hev
                rw [hev]
                rfl
            · exact ih _ ev (by rw [hrest]; exact hev)

/-- A stored node result was logged with exactly that output as the data
payload (or was present before the loop started). -/
theorem runLoop_result_logged {V : Type _} (reg : Registry V) (cfgNodes : List Node)
    (cs : List Connection) (eid : String) :
    ∀ (l : List String) (results r : List (String × List V)) (E : List (StoreEvent V)),
      runLoop reg cfgNodes cs eid l results = (E, Except.ok r) →
      ∀ A out, alookup A r = some out →
        alookup A results = some out ∨
        StoreEvent.logEntry eid A "data" (toString out.length ++ " items") (some out) ∈ E := by
  intro l
  induction l with
  | nil =>
    intro results r E h A out hl
    simp [runLoop] at h
    rw [← h.2] at hl
    exact Or.inl hl
  | cons nodeID rest ih =>
    intro results r E h A out hl
    match hfn : findNode cfgNodes nodeID with
    | none =>
      simp only [runLoop, hfn] at h
      exact ih results r E h A out hl
    | some nd =>
      match hreg : alookup nd.type reg with
      | none => simp [runLoop, hfn, hreg] at h
      | some impl =>
        match hex : impl.execute nd.config (gatherInputs nodeID cs results) with
        | (nlogs, Except.error msg) =>
          simp [runLoop, hfn, hreg, hex] at h
        | (nlogs, Except.ok output) =>
          simp only [runLoop, hfn, hreg, hex] at h
          match hrest : runLoop reg cfgNodes cs eid rest
              (aupdate nodeID (fun _ => output) results) with
          | (E', res') =>
            rw [hrest] at h
            simp at h
            obtain ⟨hE, hres⟩ := h
            subst hres
            rcases ih _ r E' hrest A out hl with hprev | hlog
            · by_cases hA : nodeID = A
              · subst hA
                rw [alookup_aupdate_self] at hprev
                have hou : output = out := by
                  simpa using hprev
                subst hou
                refine Or.inr ?_
                rw [← hE]
                simp
              · rw [alookup_aupdate_ne hA] at hprev
                exact Or.inl hprev
            · refine Or.inr ?_
              rw [← hE]
              simp [hlog]

/-- gatherInputs produces one slot per connection into the node, in
connection order, each slot being exactly the stored output of the
connection's source; connections whose source has produced nothing are
skipped. -/
theorem gatherInputs_eq {V : Type _} (nodeID : String) :
    ∀ (cs : List Connection) (results : List (String × List V)),
      gatherInputs nodeID cs results =
        (cs.filter (fun c => decide (c.target = nodeID))).filterMap
          (fun c => alookup c.source results) := by
  intro cs
  induction cs with
  | nil => intro results; simp [gatherInputs]
  | cons c rest ih =>
    intro results
    by_cases ht : c.target = nodeID
    · match hs : alookup c.source results with
      | none => simp [gatherInputs, ht, hs, List.filter, ih]
      | some out => simp [gatherInputs, ht, hs, List.filter, ih]
    · simp [gatherInputs, ht, List.filter, ih]

/-! ## Helper lemmas at the Execute level -/

theorem executePipeline_events_log {V : Type _} (reg : Registry V) (eid : String)
    (config : PipeConfig) :
    ∀ ev ∈ (executePipeline reg eid config).1, isLogEvent ev = true := by
  intro ev hev
  match hts : topologicalSort config.nodes config.connections with
  | Except.error e =>
    simp only [executePipeline, hts] at hev
    simp at hev
  | Except.ok order =>
    simp only [executePipeline, hts] at hev
    match hrl : runLoop reg config.nodes config.connections eid order [] with
    | (evs, Except.error e) =>
      simp only [hrl] at hev
      exact runLoop_events_log reg config.nodes config.connections eid order [] ev
        (by rw [hrl]; exact hev)
    | (evs, Except.ok results) =>
      simp only [hrl] at hev
      match hlast : order.getLast? with
      | none =>
        simp only [hlast] at hev
        exact runLoop_events_log reg config.nodes config.connections eid order [] ev
          (by rw [hrl]; exact hev)
      | some last =>
        simp only [hlast] at hev
        exact runLoop_events_log reg config.nodes config.connections eid order [] ev
          (by rw [hrl]; exact hev)

theorem Execute_events_head {V : Type _} (reg : Registry V) (pipes : PipeTable)
    (executionID pipeID triggerType : String) (t0 t1 : Int) :
    ∃ rest, (Execute reg pipes executionID pipeID triggerType t0 t1).1 =
      StoreEvent.createExecution executionID pipeID triggerType t0 :: rest := by
  match hp : alookup pipeID pipes with
  | none =>
    simp only [Execute, hp]
    exact ⟨[], rfl⟩
  | some none =>
    simp only [Execute, hp]
    exact ⟨[], rfl⟩
  | some (some config) =>
    simp only [Execute, hp]
    match hep : executePipeline reg executionID config with
    | (evs, Except.error e) =>
      simp only [hep]
      exact ⟨_, rfl⟩
    | (evs, Except.ok n) =>
      simp only [hep]
      exact ⟨_, rfl⟩

/-- A graph with a single connection between two distinct identifiers has
no directed cycle. -/
theorem acyclic_single {cid u w sh th : String} (hne : u ≠ w) :
    Acyclic [{ id := cid, source := u, target := w, sourceHandle := sh, targetHandle := th }] := by
  have hstep : ∀ a b, Relation.TransGen
      (Edge [{ id := cid, source := u, target := w, sourceHandle := sh, targetHandle := th }]) a b →
      a = u ∧ b = w := by
    intro a b hT
    induction hT with
    | single h =>
      obtain ⟨c, hc, hs, ht⟩ := h
      simp at hc
      subst hc
      exact ⟨hs.symm, ht.symm⟩
    | tail hab hbc ih =>
      obtain ⟨c, hc, hs, ht⟩ := hbc
      simp at hc
      subst hc
      simp at hs
      exact absurd (hs.trans ih.2) hne
  intro v hT
  obtain ⟨h1, h2⟩ := hstep v v hT
  exact hne (h1.symm.trans h2)

/-! ## Concrete fixtures used by counterexamples and witnesses -/

/-- A node with the given identifier, of registered type "t". -/
def tNode (i : String) : Node := { id := i, type := "t", config := [], label := "" }

/-- A connection with the given identifier, source and target. -/
def tConn (i s tg : String) : Connection :=
  { id := i, source := s, target := tg, sourceHandle := "", targetHandle := "" }

def defaultSettings : Settings := { schedule := "", enabled := true, timeout := 0 }

/-- A node implementation that ignores its inputs and yields no items. -/
def trivialImpl : NodeImpl Nat := ⟨fun _ _ => ([], Except.ok [])⟩

def regT : Registry Nat := [("t", trivialImpl)]

def nodeY : Node := tNode "Y"

def connXY : Connection := tConn "c1" "X" "Y"

def pipeP2 : PipeConfig :=
  { version := "1", nodes := [nodeY], connections := [connXY], settings := defaultSettings }

def pipesP2 : PipeTable := [("p2", some pipeP2)]

def cycNodes : List Node := [tNode "A", tNode "B", tNode "C"]

def cycConns : List Connection :=
  [tConn "c1" "A" "B", tConn "c2" "B" "A", tConn "c3" "C" "Z1", tConn "c4" "Z1" "Z2"]

def cycPipe : PipeConfig :=
  { version := "1", nodes := cycNodes, connections := cycConns, settings := defaultSettings }

def cycPipes : PipeTable := [("pc", some cycPipe)]

/-! ## Claim C1 -/

/-- C1 counterexample: for pipeline P2 (a single node Y and a connection
from the absent node X to Y), the Graph Resolver does not ignore the
dangling edge: it fails with the cyclic-graph error, and Execute returns
that error instead of proceeding. -/
theorem claim_C1_counterexample :
    topologicalSort [nodeY] [connXY] = Except.error "pipeline contains a cycle" ∧
    (Execute regT pipesP2 "e1" "p2" "manual" 0 1).2.2 = some EngineError.cyclicGraph :=
  ⟨rfl, rfl⟩

/-- C1 (amended): a Connection whose source node does not exist still
increments the target's in-degree, and the phantom source is never
enqueued, so for pipeline P2 the target can never be scheduled: the Graph
Resolver fails with the cyclic-graph error, the Execution Record is marked
failed, and Execute returns the error; node Y never runs and receives no
input slot. -/
theorem claim_C1 :
    topologicalSort [nodeY] [connXY] = Except.error "pipeline contains a cycle" ∧
    Execute regT pipesP2 "e1" "p2" "manual" 0 1 =
      ([StoreEvent.createExecution "e1" "p2" "manual" 0,
        StoreEvent.updateFailed "e1" 1 1000 "topological sort: pipeline contains a cycle"],
       "e1", some EngineError.cyclicGraph) :=
  ⟨rfl, rfl⟩

/-! ## Claim C4 -/

/-- C4 counterexample: an acyclic graph (one node Y, one connection from
the absent X into Y — no directed cycle exists) on which the Graph
Resolver nevertheless fails, refuting the claim for arbitrary connection
sets. -/
theorem claim_C4_counterexample :
    Acyclic [connXY] ∧
    topologicalSort [nodeY] [connXY] = Except.error "pipeline contains a cycle" :=
  ⟨acyclic_single (by decide), rfl⟩

/-- C4 (amended): for every acyclic graph whose node identifiers are
unique and whose connections reference only existing nodes (the data-model
invariants), the Graph Resolver succeeds with an order of length equal to
the node count in which every node appears after every node with an edge
into it. -/
theorem claim_C4 (ns : List Node) (cs : List Connection) (hwf : Wellformed ns cs)
    (hacyc : Acyclic cs) :
    ∃ order, topologicalSort ns cs = Except.ok order ∧ order.length = ns.length ∧
      ∀ c ∈ cs, pos c.source order < pos c.target order := by
  obtain ⟨order, hok, _, hlen, _, hord⟩ := topo_ok_of_acyclic hwf hacyc
  exact ⟨order, hok, hlen, fun c hc => (hord c hc).2.2⟩

def wNodes : List Node := [tNode "a", tNode "b"]

def wConn : Connection := tConn "w1" "a" "b"

/-- C4 witness: the amended claim applied to the two-node chain a → b. -/
theorem claim_C4_witness :
    Wellformed wNodes [wConn] ∧
    ∃ order, topologicalSort wNodes [wConn] = Except.ok order ∧
      order.length = wNodes.length ∧
      ∀ c ∈ [wConn], pos c.source order < pos c.target order := by
  have hwf : Wellformed wNodes [wConn] := by
    constructor
    · decide
    · decide
  exact ⟨hwf, claim_C4 wNodes [wConn] hwf (acyclic_single (by decide))⟩

/-! ## Claim C5 -/

/-- C5 counterexample: a graph with a genuine directed cycle A → B → A
among its nodes, padded with two connections to phantom nodes Z1 and Z2;
the phantom chain inflates the sorted count to the node count, so the
Graph Resolver succeeds and Execute completes without error, refuting the
claim for arbitrary connection sets. -/
theorem claim_C5_counterexample :
    Relation.TransGen (Edge cycConns) "A" "A" ∧
    topologicalSort cycNodes cycConns = Except.ok ["C", "Z1", "Z2"] ∧
    (Execute regT cycPipes "e1" "pc" "manual" 0 1).2.2 = none := by
  refine ⟨?_, rfl, rfl⟩
  have e1 : Edge cycConns "A" "B" := ⟨tConn "c1" "A" "B", by simp [cycConns], rfl, rfl⟩
  have e2 : Edge cycConns "B" "A" := ⟨tConn "c2" "B" "A", by simp [cycConns], rfl, rfl⟩
  exact Relation.TransGen.tail (Relation.TransGen.single e1) e2

/-- C5 (amended): for every graph whose node identifiers are unique and
whose connections reference only existing nodes, the presence of a
directed cycle makes the Graph Resolver fail with the cyclic-graph error
(and no partial order is produced), and Execute on such a pipeline returns
that error. -/
theorem claim_C5 (ns : List Node) (cs : List Connection) (v : String)
    (hwf : Wellformed ns cs) (hcyc : Relation.TransGen (Edge cs) v v) :
    topologicalSort ns cs = Except.error "pipeline contains a cycle" ∧
    ∀ (V : Type) (reg : Registry V) (pipes : PipeTable)
      (executionID pipeID triggerType : String) (t0 t1 : Int) (cfg : PipeConfig),
      alookup pipeID pipes = some (some cfg) → cfg.nodes = ns → cfg.connections = cs →
      (Execute reg pipes executionID pipeID triggerType t0 t1).2.2 =
        some EngineError.cyclicGraph := by
  have herr : topologicalSort ns cs = Except.error "pipeline contains a cycle" := by
    match hres : topologicalSort ns cs with
    | Except.ok order => exact absurd hcyc (acyclic_of_topo_ok hwf hres v)
    | Except.error e =>
      obtain ⟨sorted, hif, _, _, _, _⟩ := topologicalSort_run ns cs hwf
      rw [hres] at hif
      by_cases hcond : sorted.length ≠ ns.length
      · rw [if_pos hcond] at hif
        exact hif
      · rw [if_neg hcond] at hif
        exact absurd hif (by simp)
  refine ⟨herr, ?_⟩
  intro V reg pipes eid pid trig t0 t1 cfg hp hn hc
  have hep : executePipeline reg eid cfg = ([], Except.error EngineError.cyclicGraph) := by
    unfold executePipeline
    rw [hn, hc, herr]
  simp [Execute, hp, hep]

def w5Nodes : List Node := [tNode "a", tNode "b"]

def w5Conns : List Connection := [tConn "w1" "a" "b", tConn "w2" "b" "a"]

/-- C5 witness: the amended claim applied to the two-node cycle a → b → a. -/
theorem claim_C5_witness :
    topologicalSort w5Nodes w5Conns = Except.error "pipeline contains a cycle" := by
  have hcyc : Relation.TransGen (Edge w5Conns) "a" "a" := by
    have e1 : Edge w5Conns "a" "b" := ⟨tConn "w1" "a" "b", by simp [w5Conns], rfl, rfl⟩
    have e2 : Edge w5Conns "b" "a" := ⟨tConn "w2" "b" "a", by simp [w5Conns], rfl, rfl⟩
    exact Relation.TransGen.tail (Relation.TransGen.single e1) e2
  exact (claim_C5 w5Nodes w5Conns "a" (by constructor <;> decide) hcyc).1

/-! ## Claim C2 -/

/-- C2 counterexample: when the pipeline does not exist (PipelineNotFound),
Execute returns the empty string, not the allocated execution identifier,
so the caller cannot look up the record that was created. -/
theorem claim_C2_counterexample :
    (Execute (V := Nat) [] [] "e1" "p1" "manual" 0 1).2.1 = "" ∧
    (Execute (V := Nat) [] [] "e1" "p1" "manual" 0 1).2.2 =
      some (EngineError.pipeNotFound "p1") ∧
    "e1" ≠ "" :=
  ⟨rfl, rfl, by decide⟩

/-- C2 (amended): Execute returns the allocated execution identifier in
the success case and in every failure arising during pipeline execution
(the stored definition was found and parsed); on the PipelineNotFound and
MalformedDefinition paths it returns the empty identifier instead. -/
theorem claim_C2 {V : Type _} (reg : Registry V) (pipes : PipeTable)
    (executionID pipeID triggerType : String) (t0 t1 : Int) :
    (∀ cfg, alookup pipeID pipes = some (some cfg) →
      (Execute reg pipes executionID pipeID triggerType t0 t1).2.1 = executionID) ∧
    (alookup pipeID pipes = none →
      (Execute reg pipes executionID pipeID triggerType t0 t1).2.1 = "") ∧
    (alookup pipeID pipes = some none →
      (Execute reg pipes executionID pipeID triggerType t0 t1).2.1 = "") := by
  refine ⟨?_, ?_, ?_⟩
  · intro cfg hp
    match hep : executePipeline reg executionID cfg with
    | (evs, Except.error e) => simp [Execute, hp, hep]
    | (evs, Except.ok n) => simp [Execute, hp, hep]
  · intro hp
    simp [Execute, hp]
  · intro hp
    simp [Execute, hp]

def emptyPipe : PipeConfig :=
  { version := "1", nodes := [], connections := [], settings := defaultSettings }

/-- C2 witness: with a stored, parsable pipeline the allocated identifier
is returned. -/
theorem claim_C2_witness :
    (Execute (V := Nat) [] [("p", some emptyPipe)] "e9" "p" "manual" 0 1).2.1 = "e9" :=
  (claim_C2 ([] : Registry Nat) [("p", some emptyPipe)] "e9" "p" "manual" 0 1).1 emptyPipe rfl

/-! ## Claim C3 -/

/-- C3 counterexample: when the pipeline is not found, the Execution
Record is created in running state and Execute returns with an error
without ever updating it — the record is left in running state, refuting
"mutated exactly once to success or failed" for every run. -/
theorem claim_C3_counterexample :
    (Execute (V := Nat) [] [] "e1" "p1" "manual" 0 1).1 =
      [StoreEvent.createExecution "e1" "p1" "manual" 0] ∧
    (Execute (V := Nat) [] [] "e1" "p1" "manual" 0 1).2.2 =
      some (EngineError.pipeNotFound "p1") :=
  ⟨rfl, rfl⟩

/-- C3 (amended): the Execution Record is always created (in running
state) before any node runs; when the stored definition is found and
parses, the remaining store writes are log appends followed by exactly one
terminal update, to success or to failed; when the definition is missing
or malformed, the record is never updated and remains running. -/
theorem claim_C3 {V : Type _} (reg : Registry V) (pipes : PipeTable)
    (executionID pipeID triggerType : String) (t0 t1 : Int) :
    (∃ rest, (Execute reg pipes executionID pipeID triggerType t0 t1).1 =
      StoreEvent.createExecution executionID pipeID triggerType t0 :: rest) ∧
    (∀ cfg, alookup pipeID pipes = some (some cfg) →
      ∃ mid upd, (Execute reg pipes executionID pipeID triggerType t0 t1).1 =
        StoreEvent.createExecution executionID pipeID triggerType t0 :: (mid ++ [upd]) ∧
        (∀ ev ∈ mid, isLogEvent ev = true) ∧
        ((∃ n, upd = StoreEvent.updateSuccess executionID t1 ((t1 - t0) * 1000) n) ∨
         (∃ m, upd = StoreEvent.updateFailed executionID t1 ((t1 - t0) * 1000) m))) ∧
    ((alookup pipeID pipes = none ∨ alookup pipeID pipes = some none) →
      (Execute reg pipes executionID pipeID triggerType t0 t1).1 =
        [StoreEvent.createExecution executionID pipeID triggerType t0]) := by
  refine ⟨Execute_events_head reg pipes executionID pipeID triggerType t0 t1, ?_, ?_⟩
  · intro cfg hp
    match hep : executePipeline reg executionID cfg with
    | (evs, Except.error e) =>
      refine ⟨evs, StoreEvent.updateFailed executionID t1 ((t1 - t0) * 1000) e.render,
        ?_, ?_, Or.inr ⟨e.render, rfl⟩⟩
      · simp [Execute, hp, hep]
      · intro ev hev
        exact executePipeline_events_log reg executionID cfg ev (by rw [hep]; exact hev)
    | (evs, Except.ok n) =>
      refine ⟨evs, StoreEvent.updateSuccess executionID t1 ((t1 - t0) * 1000) n,
        ?_, ?_, Or.inl ⟨n, rfl⟩⟩
      · simp [Execute, hp, hep]
      · intro ev hev
        exact executePipeline_events_log reg executionID cfg ev (by rw [hep]; exact hev)
  · rintro (hp | hp) <;> simp [Execute, hp]

/-- C3 witness: the amended claim applied to a stored empty pipeline. -/
theorem claim_C3_witness :
    ∃ mid upd, (Execute (V := Nat) regT [("p", some emptyPipe)] "e1" "p" "manual" 0 2).1 =
      StoreEvent.createExecution "e1" "p" "manual" 0 :: (mid ++ [upd]) ∧
      (∀ ev ∈ mid, isLogEvent ev = true) ∧
      ((∃ n, upd = StoreEvent.updateSuccess "e1" 2 ((2 - 0) * 1000) n) ∨
       (∃ m, upd = StoreEvent.updateFailed "e1" 2 ((2 - 0) * 1000) m)) :=
  (claim_C3 regT [("p", some emptyPipe)] "e1" "p" "manual" 0 2).2.1 emptyPipe rfl

/-! ## Claim C9 -/

/-- C9: a stored pipeline with zero nodes executes successfully with item
count 0; exactly one Execution Record is created, and the only further
store write is the single update to success. -/
theorem claim_C9 {V : Type _} (reg : Registry V) (pipes : PipeTable)
    (executionID pipeID triggerType : String) (t0 t1 : Int) (cfg : PipeConfig)
    (hpipe : alookup pipeID pipes = some (some cfg)) (hnodes : cfg.nodes = []) :
    Execute reg pipes executionID pipeID triggerType t0 t1 =
      ([StoreEvent.createExecution executionID pipeID triggerType t0,
        StoreEvent.updateSuccess executionID t1 ((t1 - t0) * 1000) 0], executionID, none) := by
  have hts : topologicalSort cfg.nodes cfg.connections = Except.ok [] := by
    rw [hnodes]
    exact topologicalSort_nil _
  have hep : executePipeline reg executionID cfg = ([], Except.ok 0) := by
    unfold executePipeline
    rw [hts]
    rfl
  simp [Execute, hpipe, hep]

/-- C9 witness: the zero-node claim at a concrete store. -/
theorem claim_C9_witness :
    Execute (V := Nat) regT [("p", some emptyPipe)] "e1" "p" "manual" 0 2 =
      ([StoreEvent.createExecution "e1" "p" "manual" 0,
        StoreEvent.updateSuccess "e1" 2 ((2 - 0) * 1000) 0], "e1", none) :=
  claim_C9 regT [("p", some emptyPipe)] "e1" "p" "manual" 0 2 emptyPipe rfl rfl

/-! ## Claim C6 -/

/-- C6: when a node's Execute fails, its own context logs are followed by
an error-level log entry for that node, the run aborts (the event trace
ends with that entry and the single failed update — nothing is written for
any later node in the order), the error is the node error wrapped with the
node's identifier and type, and the stored failure message contains the
failing node's identifier. -/
theorem claim_C6 {V : Type _} (reg : Registry V) (pipes : PipeTable)
    (executionID pipeID triggerType : String) (t0 t1 : Int) (cfg : PipeConfig)
    (order pre rest : List String) (F : String) (r : List (String × List V))
    (Epre : List (StoreEvent V)) (nd : Node) (impl : NodeImpl V)
    (nlogs : List (String × String × String)) (msg : String)
    (hpipe : alookup pipeID pipes = some (some cfg))
    (horder : topologicalSort cfg.nodes cfg.connections = Except.ok order)
    (hdecomp : order = pre ++ F :: rest)
    (hpre : runLoop reg cfg.nodes cfg.connections executionID pre [] = (Epre, Except.ok r))
    (hfind : findNode cfg.nodes F = some nd)
    (hreg : alookup nd.type reg = some impl)
    (hex : impl.execute nd.config (gatherInputs F cfg.connections r) =
      (nlogs, Except.error msg)) :
    Execute reg pipes executionID pipeID triggerType t0 t1 =
      (StoreEvent.createExecution executionID pipeID triggerType t0 ::
        (Epre ++ (nodeLogEvents executionID nlogs ++
          [StoreEvent.logEntry executionID F "error" ("Execution failed: " ++ msg) none]) ++
          [StoreEvent.updateFailed executionID t1 ((t1 - t0) * 1000)
            (EngineError.nodeFailed F nd.type msg).render]),
       executionID, some (EngineError.nodeFailed F nd.type msg)) ∧
    ∃ a b, (EngineError.nodeFailed F nd.type msg).render = a ++ (F ++ b) := by
  have hFrun : runLoop reg cfg.nodes cfg.connections executionID (F :: rest) r =
      (nodeLogEvents executionID nlogs ++
        [StoreEvent.logEntry executionID F "error" ("Execution failed: " ++ msg) none],
       Except.error (EngineError.nodeFailed F nd.type msg)) := by
    simp only [runLoop, hfind, hreg, hex]
  have hrun : runLoop reg cfg.nodes cfg.connections executionID order [] =
      (Epre ++ (nodeLogEvents executionID nlogs ++
        [StoreEvent.logEntry executionID F "error" ("Execution failed: " ++ msg) none]),
       Except.error (EngineError.nodeFailed F nd.type msg)) := by
    rw [hdecomp, runLoop_append_ok reg cfg.nodes cfg.connections executionID pre (F :: rest)
      [] r Epre hpre, hFrun]
  have hep : executePipeline reg executionID cfg =
      (Epre ++ (nodeLogEvents executionID nlogs ++
        [StoreEvent.logEntry executionID F "error" ("Execution failed: " ++ msg) none]),
       Except.error (EngineError.nodeFailed F nd.type msg)) := by
    simp only [executePipeline, horder, hrun]
  constructor
  · simp [Execute, hpipe, hep]
  · refine ⟨"node ", " (" ++ nd.type ++ "): " ++ msg, ?_⟩
    simp only [EngineError.render, String.append_assoc]

def failImpl : NodeImpl Nat := ⟨fun _ _ => ([], Except.error "boom")⟩

def failNode : Node := { id := "n1", type := "f", config := [], label := "" }

def regF : Registry Nat := [("t", trivialImpl), ("f", failImpl)]

def failPipe : PipeConfig :=
  { version := "1", nodes := [failNode], connections := [], settings := defaultSettings }

def failPipes : PipeTable := [("pf", some failPipe)]

/-- C6 witness: a single failing node aborts the run and marks the record
failed with a message naming the node. -/
theorem claim_C6_witness :
    Execute regF failPipes "e1" "pf" "manual" 0 3 =
      (StoreEvent.createExecution "e1" "pf" "manual" 0 ::
        (([] : List (StoreEvent Nat)) ++ (nodeLogEvents "e1" [] ++
          [StoreEvent.logEntry "e1" "n1" "error" ("Execution failed: " ++ "boom") none]) ++
          [StoreEvent.updateFailed "e1" 3 ((3 - 0) * 1000)
            (EngineError.nodeFailed "n1" "f" "boom").render]),
       "e1", some (EngineError.nodeFailed "n1" "f" "boom")) ∧
    ∃ a b, (EngineError.nodeFailed "n1" "f" "boom").render = a ++ ("n1" ++ b) :=
  claim_C6 regF failPipes "e1" "pf" "manual" 0 3 failPipe ["n1"] [] [] "n1" [] []
    failNode failImpl [] "boom" rfl rfl rfl rfl rfl rfl rfl

/-! ## Claim C7 -/

/-- C7: when the run reaches node B with in-memory results r, the input
slots passed to B are exactly one slot per connection into B, in
connection order, each slot being precisely the stored output of the
connection's source; the stored output of a source A equals the output A
produced in this run, as witnessed by A's data-level log entry whose
payload is exactly that sequence. -/
theorem claim_C7 {V : Type _} (reg : Registry V) (cfgNodes : List Node) (cs : List Connection)
    (executionID : String) (pre : List String) (r : List (String × List V))
    (Epre : List (StoreEvent V)) (B : String) (c : Connection) (outA : List V)
    (hpre : runLoop reg cfgNodes cs executionID pre [] = (Epre, Except.ok r))
    (hc : c ∈ cs) (ht : c.target = B) (hA : alookup c.source r = some outA) :
    gatherInputs B cs r =
      (cs.filter (fun x => decide (x.target = B))).filterMap (fun x => alookup x.source r) ∧
    outA ∈ gatherInputs B cs r ∧
    StoreEvent.logEntry executionID c.source "data" (toString outA.length ++ " items")
      (some outA) ∈ Epre := by
  refine ⟨gatherInputs_eq B cs r, ?_, ?_⟩
  · rw [gatherInputs_eq]
    exact List.mem_filterMap.mpr ⟨c, List.mem_filter.mpr ⟨hc, by simp [ht]⟩, hA⟩
  · rcases runLoop_result_logged reg cfgNodes cs executionID pre [] r Epre hpre
      c.source outA hA with h | h
    · simp [alookup] at h
    · exact h

def srcImpl : NodeImpl Nat := ⟨fun _ _ => ([], Except.ok [1, 2, 3])⟩

def regS : Registry Nat := [("s", srcImpl)]

def srcNode : Node := { id := "A", type := "s", config := [], label := "" }

def connAB : Connection := tConn "cab" "A" "B"

/-- C7 witness: after running source node A, node B's single input slot is
exactly A's produced output. -/
theorem claim_C7_witness :
    gatherInputs "B" [connAB] [("A", ([1, 2, 3] : List Nat))] =
      ([connAB].filter (fun x => decide (x.target = "B"))).filterMap
        (fun x => alookup x.source [("A", ([1, 2, 3] : List Nat))]) ∧
    ([1, 2, 3] : List Nat) ∈ gatherInputs "B" [connAB] [("A", ([1, 2, 3] : List Nat))] ∧
    StoreEvent.logEntry "e1" "A" "data" (toString ([1, 2, 3] : List Nat).length ++ " items")
      (some ([1, 2, 3] : List Nat)) ∈
      [StoreEvent.logEntry "e1" "A" "data"
        (toString ([1, 2, 3] : List Nat).length ++ " items") (some ([1, 2, 3] : List Nat))] :=
  claim_C7 regS [srcNode] [connAB] "e1" ["A"] [("A", [1, 2, 3])]
    [StoreEvent.logEntry "e1" "A" "data"
      (toString ([1, 2, 3] : List Nat).length ++ " items") (some ([1, 2, 3] : List Nat))]
    "B" connAB [1, 2, 3] rfl (by simp) rfl rfl

/-! ## Claim C8 -/

/-- C8: in a Scheduler tick, every due job (enabled, next run at or before
now) has its execution triggered (an Execution Record is created with its
fresh identifier and trigger kind scheduled) and is unconditionally
rescheduled — last run set to now and next run advanced by one hour — with
no assumption at all on whether its own execution, or any other job's,
succeeded. -/
theorem claim_C8 {V : Type _} (reg : Registry V) (pipes : PipeTable)
    (jobs : List ScheduledJob) (now : Int) (idgen : String → String) :
    ∀ j ∈ jobs, j.enabled = true → j.nextRunAt ≤ now →
      StoreEvent.updateJobAfterRun j.id now (now + 3600) ∈ tick reg pipes jobs now idgen ∧
      StoreEvent.createExecution (idgen j.id) j.pipeID "scheduled" now ∈
        tick reg pipes jobs now idgen ∧
      j.nextRunAt < now + 3600 := by
  intro j hj hen hdue
  have hdueJ : j ∈ getDueJobs jobs now := List.mem_filter.mpr ⟨hj, by simp [hen, hdue]⟩
  have hEJ : executeJob reg pipes j (idgen j.id) now now now =
      (Execute reg pipes (idgen j.id) j.pipeID "scheduled" now now).1 ++
        [StoreEvent.updateJobAfterRun j.id now (now + 3600)] := rfl
  have hmem : ∀ (dl : List ScheduledJob), j ∈ dl →
      StoreEvent.updateJobAfterRun j.id now (now + 3600) ∈ runJobs reg pipes idgen now dl ∧
      StoreEvent.createExecution (idgen j.id) j.pipeID "scheduled" now ∈
        runJobs reg pipes idgen now dl := by
    intro dl
    induction dl with
    | nil => intro h; simp at h
    | cons j0 restJ ih =>
      intro h
      rcases List.mem_cons.mp h with h | h
      · subst h
        have hrj : runJobs reg pipes idgen now (j :: restJ) =
            executeJob reg pipes j (idgen j.id) now now now ++
              runJobs reg pipes idgen now restJ := rfl
        rw [hrj, hEJ]
        constructor
        · exact List.mem_append_left _ (List.mem_append_right _ (by simp))
        · obtain ⟨rest2, hhead⟩ :=
            Execute_events_head reg pipes (idgen j.id) j.pipeID "scheduled" now now
          refine List.mem_append_left _ (List.mem_append_left _ ?_)
          rw [hhead]
          simp
      · have hih := ih h
        have hrj : runJobs reg pipes idgen now (j0 :: restJ) =
            executeJob reg pipes j0 (idgen j0.id) now now now ++
              runJobs reg pipes idgen now restJ := rfl
        rw [hrj]
        exact ⟨List.mem_append_right _ hih.1, List.mem_append_right _ hih.2⟩
  have hfin := hmem (getDueJobs jobs now) hdueJ
  exact ⟨hfin.1, hfin.2, by omega⟩

def job1 : ScheduledJob :=
  { id := "j1", pipeID := "missing", cronExpression := "", nextRunAt := 5,
    lastRunAt := none, enabled := true }

def job2 : ScheduledJob :=
  { id := "j2", pipeID := "p", cronExpression := "", nextRunAt := 7,
    lastRunAt := none, enabled := true }

/-- C8 witness: two due jobs; the first one's execution fails (its
pipeline is missing), yet both are rescheduled and the second still runs. -/
theorem claim_C8_witness :
    StoreEvent.updateJobAfterRun "j1" 10 (10 + 3600) ∈
      tick regT [("p", some emptyPipe)] [job1, job2] 10 (fun s => s ++ "-e") ∧
    StoreEvent.updateJobAfterRun "j2" 10 (10 + 3600) ∈
      tick regT [("p", some emptyPipe)] [job1, job2] 10 (fun s => s ++ "-e") ∧
    StoreEvent.createExecution "j2-e" "p" "scheduled" 10 ∈
      tick regT [("p", some emptyPipe)] [job1, job2] 10 (fun s => s ++ "-e") ∧
    (Execute (V := Nat) regT [("p", some emptyPipe)] "j1-e" "missing" "scheduled" 10 10).2.2 =
      some (EngineError.pipeNotFound "missing") :=
  ⟨(claim_C8 regT [("p", some emptyPipe)] [job1, job2] 10 (fun s => s ++ "-e") job1
      (by simp) rfl (by decide)).1,
   (claim_C8 regT [("p", some emptyPipe)] [job1, job2] 10 (fun s => s ++ "-e") job2
      (by simp) rfl (by decide)).1,
   (claim_C8 regT [("p", some emptyPipe)] [job1, job2] 10 (fun s => s ++ "-e") job2
      (by simp) rfl (by decide)).2.1,
   rfl⟩

/-! ## Claim C10 -/

/-- C10: the Limit node's Execute never errors; with no input slots it
returns the empty sequence; with a first input of n items and integer
count c it returns exactly the first c items when 0 < c < n, and the input
unchanged otherwise (c at most 0, c at least n, or count missing or
non-numeric, which read as 0). -/
theorem claim_C10 {V : Type _} (config : List (String × ConfigValue)) (inputs : List (List V)) :
    (∃ logs out, limitExecute config inputs = (logs, Except.ok out)) ∧
    (inputs = [] → limitExecute config inputs = ([], Except.ok [])) ∧
    (∀ (items : List V) (restInputs : List (List V)), inputs = items :: restInputs →
      ((limitCount config ≤ 0 ∨ (items.length : Int) ≤ limitCount config →
        (limitExecute config inputs).2 = Except.ok items) ∧
       (0 < limitCount config → limitCount config < (items.length : Int) →
        (limitExecute config inputs).2 = Except.ok (items.take (limitCount config).toNat) ∧
        (items.take (limitCount config).toNat).length = (limitCount config).toNat))) ∧
    (alookup "count" config = none → limitCount config = 0) ∧
    (∀ s, alookup "count" config = some (ConfigValue.str s) → limitCount config = 0) := by
  refine ⟨?_, ?_, ?_, ?_, ?_⟩
  · match inputs with
    | [] => exact ⟨[], [], rfl⟩
    | items :: restI =>
      by_cases hcond : limitCount config ≤ 0 ∨ (items.length : Int) ≤ limitCount config
      · refine ⟨[], items, ?_⟩
        simp only [limitExecute]
        rw [if_pos hcond]
      · refine ⟨[("limit", "info",
            "Limited " ++ toString items.length ++ " -> " ++
              toString (limitCount config).toNat ++ " items")],
          items.take (limitCount config).toNat, ?_⟩
        simp only [limitExecute]
        rw [if_neg hcond]
  · intro h
    subst h
    rfl
  · intro items restI h
    subst h
    constructor
    · intro hcond
      simp only [limitExecute]
      rw [if_pos hcond]
    · intro h1 h2
      have hcond : ¬(limitCount config ≤ 0 ∨ (items.length : Int) ≤ limitCount config) := by
        push_neg
        exact ⟨h1, h2⟩
      constructor
      · simp only [limitExecute]
        rw [if_neg hcond]
      · simp [List.length_take]
        omega
  · intro h
    simp [limitCount, h]
  · intro s h
    simp [limitCount, h]

/-- C10 witness: count 2 on four items yields exactly the first two. -/
theorem claim_C10_witness :
    (limitExecute (V := Nat) [("count", ConfigValue.num 2)] [[1, 2, 3, 4]]).2 =
      Except.ok (([1, 2, 3, 4] : List Nat).take ((2 : Int)).toNat) ∧
    ([1, 2, 3, 4] : List Nat).take ((2 : Int)).toNat = [1, 2] :=
  ⟨(((claim_C10 [("count", ConfigValue.num 2)] [[1, 2, 3, 4]]).2.2.1 [1, 2, 3, 4] []
      rfl).2 (by decide) (by decide)).1, by decide⟩

end Pipes
